import Mathlib

/-!
Verification of the Bit-Merge identity reconciliation engine
(`src/services/contact.service.ts`) against its natural-language spec.

The TypeScript service is shallowly embedded as pure Lean functions over an
explicit store state.  The Prisma-backed contact table becomes a `Store`
carrying the list of rows (in insertion order, which for a well-formed store
is ascending-id order), the next serial id, and the current clock value used
for `createdAt` of newly inserted rows.  Each data-store write performed by
the transaction body is also counted, so that claims about "zero writes" can
be stated.  JavaScript truthiness of the nullable string/number fields is
modelled explicitly (`null` and the empty string are falsy; `null` and the
id `0` are falsy for numbers).  `Array.prototype.sort` is stable
(ES2019), and a stable sort by a total preorder has a unique result, so it
is modelled by a stable insertion sort.  JavaScript `Set`/`Map` iteration
order is insertion order with first occurrence kept, modelled by
`dedupeBy`.
-/

namespace BitMerge

/-- Link precedence of a contact row: `primary` or `secondary`. -/
inductive LinkPrecedence where
  | primary
  | secondary
deriving DecidableEq

/-- One row of the `Contact` table, as selected by Prisma. -/
structure Contact where
  id : Nat
  email : Option String
  phoneNumber : Option String
  linkedId : Option Nat
  linkPrecedence : LinkPrecedence
  createdAt : Nat
  deletedAt : Option Nat
deriving DecidableEq

/-- The persistent state seen by one transaction: the contact rows in
insertion order, the next serial id, and the clock used for `createdAt`
of fresh rows. -/
structure Store where
  contacts : List Contact
  nextId : Nat
  now : Nat
deriving DecidableEq

/-- The `contact` object of the service's `IdentifyResponse` (field names kept
from the source, including the `primaryContatctId` spelling). -/
structure IdentifyResponse where
  primaryContatctId : Nat
  emails : List String
  phoneNumbers : List String
  secondaryContactIds : List Nat
deriving DecidableEq

/-- A JavaScript error value as far as `withRetry` inspects it: `err.code`,
`err?.meta?.code` and the message. -/
structure JsError where
  code : Option String
  metaCode : Option String
  message : String
deriving DecidableEq

/-- JavaScript truthiness of a nullable string: `null` and `""` are falsy. -/
def truthyStr : Option String → Bool
  | none => false
  | some s => !(s == "")

/-- JavaScript truthiness of a nullable id: `null` and `0` are falsy. -/
def truthyNat : Option Nat → Bool
  | none => false
  | some n => !(n == 0)

/-- Keep the first occurrence of each key, dropping later duplicates;
`seen` is the set of keys already emitted.  This is the semantics of
a JavaScript `Set`/`Map` (insertion order, first occurrence kept) and of
the `findIndex`-based dedup in the source. -/
def dedupeByAux {α β : Type} [DecidableEq β] (key : α → β) : List α → List β → List α
  | [], _ => []
  | x :: xs, seen =>
    if key x ∈ seen then dedupeByAux key xs seen
    else x :: dedupeByAux key xs (key x :: seen)

/-- Deduplicate a list by a key, keeping first occurrences in order. -/
def dedupeBy {α β : Type} [DecidableEq β] (key : α → β) (l : List α) : List α :=
  dedupeByAux key l []

/-- Insert a contact into a list sorted by `createdAt`, before any element of
equal `createdAt` that was originally later (the placement a stable sort
gives an earlier element). -/
def insertByCreated (x : Contact) : List Contact → List Contact
  | [] => [x]
  | y :: ys => if y.createdAt < x.createdAt then y :: insertByCreated x ys else x :: y :: ys

/-- Stable sort by ascending `createdAt`; models the stable
`Array.prototype.sort((a, b) => a.createdAt.getTime() - b.createdAt.getTime())`. -/
def sortByCreated : List Contact → List Contact
  | [] => []
  | x :: xs => insertByCreated x (sortByCreated xs)

/-- First element of minimal `createdAt` in a list (ties keep the earlier
element); this is the head a stable ascending sort produces. -/
def firstMinByCreated : List Contact → Option Contact
  | [] => none
  | x :: xs =>
    match firstMinByCreated xs with
    | none => some x
    | some m => if m.createdAt < x.createdAt then some m else some x

/-- Model of `tx.contact.findUnique({ where: { id } })`. -/
def findUnique (s : Store) (cid : Nat) : Option Contact :=
  s.contacts.find? (fun c => c.id == cid)

/-- Error thrown by `findRootPrimary` when the hop bound is exceeded:
a plain `Error` with no Prisma code. -/
def circularLinkError (cid : Nat) : JsError :=
  ⟨none, none, "Circular link detected at contact " ++ toString cid⟩

/-- Error thrown by `findRootPrimary` when the looked-up contact is absent. -/
def contactNotFoundError (cid : Nat) : JsError :=
  ⟨none, none, "Contact " ++ toString cid ++ " not found"⟩

/-- The while loop of `findRootPrimary`, with the remaining hop budget as
fuel (the source allows `maxDepth` hops and throws on the next one) and an
instrumented count of the hops actually taken. -/
def rootLoopH (s : Store) (cid : Nat) : Nat → Option Contact → Except JsError Contact × Nat
  | _, none => (.error (contactNotFoundError cid), 0)
  | fuel, some c =>
    if c.linkPrecedence = .secondary ∧ truthyNat c.linkedId then
      match fuel with
      | 0 => (.error (circularLinkError cid), 0)
      | fuel' + 1 =>
        let r := rootLoopH s cid fuel' (findUnique s (c.linkedId.getD 0))
        (r.1, r.2 + 1)
    else (.ok c, 0)

/-- Model of `findRootPrimary(tx, contactId, maxDepth = 10)`, additionally
returning the number of `linkedId` hops followed. -/
def findRootPrimaryH (s : Store) (cid : Nat) : Except JsError Contact × Nat :=
  rootLoopH s cid 10 (findUnique s cid)

/-- Model of `findRootPrimary(tx, contactId)` (hop count dropped). -/
def findRootPrimary (s : Store) (cid : Nat) : Except JsError Contact :=
  (findRootPrimaryH s cid).1

/-- The retry classification of `withRetry`:
`err.code === 'P2034' || err?.meta?.code === '40001'`. -/
def isRetryable (e : JsError) : Bool :=
  e.code == some "P2034" || e.metaCode == some "40001"

/-- The error of the unreachable `throw new Error('Max retries reached')`
after the retry loop. -/
def maxRetriesError : JsError :=
  ⟨none, none, "Max retries reached"⟩

/-- The retry loop of `withRetry`: `attempts i` is the outcome of executing
the transaction body for the `i`-th time; the fuel is the number of loop
iterations left (`retries - i`).  Returns the surfaced outcome and the
number of times the body was executed.  The source retries only when the
error is retryable and `i < retries - 1`, i.e. when more than one iteration
of fuel remains. -/
def withRetryLoop {α : Type} (attempts : Nat → Except JsError α) : Nat → Nat → Except JsError α × Nat
  | 0, _ => (.error maxRetriesError, 0)
  | fuel + 1, i =>
    match attempts i with
    | .ok v => (.ok v, 1)
    | .error e =>
      if isRetryable e ∧ 0 < fuel then
        let r := withRetryLoop attempts fuel (i + 1)
        (r.1, r.2 + 1)
      else (.error e, 1)

/-- Model of `withRetry(fn, retries = 3)` over an abstract sequence of body
outcomes, returning the surfaced result and the number of executions. -/
def withRetry {α : Type} (attempts : Nat → Except JsError α) (retries : Nat := 3) :
    Except JsError α × Nat :=
  withRetryLoop attempts retries 0

/-- Model of `buildResponse(tx, primaryContact)`: fetch the non-deleted
secondaries of the primary ordered by ascending `createdAt`, then collect
deduplicated truthy emails and phone numbers of the primary followed by its
secondaries (`filter(Boolean)` drops both `null` and the empty string). -/
def buildResponse (s : Store) (primaryContact : Contact) : IdentifyResponse :=
  let secondaries := sortByCreated (s.contacts.filter
    (fun c => decide (c.linkedId = some primaryContact.id ∧ c.deletedAt = none)))
  let allContacts := primaryContact :: secondaries
  let emails := dedupeBy (fun x => x)
    ((allContacts.filterMap (fun c => c.email)).filter (fun e => !(e == "")))
  let phoneNumbers := dedupeBy (fun x => x)
    ((allContacts.filterMap (fun c => c.phoneNumber)).filter (fun p => !(p == "")))
  ⟨primaryContact.id, emails, phoneNumbers, secondaries.map (fun c => c.id)⟩

/-- The match-lookup phase of `identifyContact`: all non-deleted rows whose
email equals a truthy input email, followed by all whose phone equals a
truthy input phone, deduplicated by id keeping first occurrences. -/
def matchesFor (s : Store) (email phoneNumber : Option String) : List Contact :=
  let emailContacts := if truthyStr email then
    s.contacts.filter (fun c => decide (c.email = email ∧ c.deletedAt = none)) else []
  let phoneContacts := if truthyStr phoneNumber then
    s.contacts.filter (fun c => decide (c.phoneNumber = phoneNumber ∧ c.deletedAt = none)) else []
  dedupeBy (fun c => c.id) (emailContacts ++ phoneContacts)

/-- The id whose root primary is looked up for a match:
`m.linkPrecedence === 'secondary' && m.linkedId ? m.linkedId : m.id`. -/
def rootArg (m : Contact) : Nat :=
  if m.linkPrecedence = .secondary ∧ truthyNat m.linkedId then m.linkedId.getD 0 else m.id

/-- Root resolution of every match, in order:
`findRootPrimary(tx, m.linkPrecedence === 'secondary' && m.linkedId ? m.linkedId : m.id)`. -/
def resolveRoots (s : Store) : List Contact → Except JsError (List Contact)
  | [] => .ok []
  | m :: ms =>
    match findRootPrimary s (rootArg m) with
    | .error err => .error err
    | .ok root =>
      match resolveRoots s ms with
      | .error err => .error err
      | .ok rest => .ok (root :: rest)

/-- One merge-loop iteration for a target: the bulk
`updateMany({ where: { linkedId: target.id, deletedAt: null } })` re-link of
the target's live secondaries to the surviving primary, followed by the
`update({ where: { id: target.id } })` demotion of the target itself.
Two write statements are issued. -/
def demoteTarget (s : Store) (oldestId targetId : Nat) : Store × Nat :=
  let afterRelink := s.contacts.map (fun c =>
    if c.linkedId = some targetId ∧ c.deletedAt = none then { c with linkedId := some oldestId } else c)
  let afterDemote := afterRelink.map (fun c =>
    if c.id = targetId then { c with linkedId := some oldestId, linkPrecedence := .secondary } else c)
  (⟨afterDemote, s.nextId, s.now⟩, 2)

/-- The merge loop of Case 3, processing the merge targets in order
(the source iterates `primaries[1..]`, already sorted ascending by
`createdAt`). -/
def mergeAll (s : Store) (oldest : Contact) : List Contact → Store × Nat
  | [] => (s, 0)
  | t :: ts =>
    let r := demoteTarget s oldest.id t.id
    let r' := mergeAll r.1 oldest ts
    (r'.1, r.2 + r'.2)

/-- The new-information test of Case 2:
`field && !existingSet.has(field)` (an untruthy input never counts as new). -/
def hasNewField (field : Option String) (existing : List String) : Bool :=
  match field with
  | none => false
  | some v => !(v == "") && !(existing.contains v)

/-- The result of one successful execution of the transaction body:
the post-commit store, the response, and the number of write statements
(inserts plus updates) issued. -/
structure TxResult where
  store : Store
  response : IdentifyResponse
  writes : Nat
deriving DecidableEq

/-- Model of the `identifyContact` transaction body: match lookup, Case 1
creation of a fresh primary on no match, root resolution, the Case 3 merge
loop over the stably-createdAt-sorted distinct root primaries, the
Case 2/Case 4 new-information insert, and the final `buildResponse` for the
surviving primary (the in-memory object fetched before the merge, exactly as
the source passes it). -/
def identifyContact (s : Store) (email phoneNumber : Option String) :
    Except JsError TxResult :=
  let uniqueMatches := matchesFor s email phoneNumber
  if uniqueMatches.isEmpty then
    let newContact : Contact := ⟨s.nextId, email, phoneNumber, none, .primary, s.now, none⟩
    let s' : Store := ⟨s.contacts ++ [newContact], s.nextId + 1, s.now⟩
    .ok ⟨s', buildResponse s' newContact, 1⟩
  else
    match resolveRoots s uniqueMatches with
    | .error err => .error err
    | .ok roots =>
    match sortByCreated (dedupeBy (fun c => c.id) roots) with
    | [] => .error ⟨none, none, "unreachable: no root primary"⟩
    | oldestPrimary :: mergeTargets =>
      let merged := mergeAll s oldestPrimary mergeTargets
      let existingEmails := (uniqueMatches.filterMap (fun c => c.email)).filter (fun e => !(e == ""))
      let existingPhones := (uniqueMatches.filterMap (fun c => c.phoneNumber)).filter (fun p => !(p == ""))
      let hasNewEmail := hasNewField email existingEmails
      let hasNewPhone := hasNewField phoneNumber existingPhones
      let inserted :=
        if hasNewEmail || hasNewPhone then
          (Store.mk
            (merged.1.contacts ++
              [⟨merged.1.nextId, email, phoneNumber, some oldestPrimary.id, .secondary, merged.1.now, none⟩])
            (merged.1.nextId + 1) merged.1.now, 1)
        else (merged.1, 0)
      .ok ⟨inserted.1, buildResponse inserted.1 oldestPrimary, merged.2 + inserted.2⟩

/-- Well-formedness of a store: a positive id counter bounding all row ids,
pairwise-distinct row ids, the primary-iff-no-linkedId invariant on every
row, and flatness on every live row: a live secondary's `linkedId` denotes a
live primary row (soft-deleted rows are invisible to every query the engine
makes, so the linking invariants are read on live rows). -/
def WF (s : Store) : Prop :=
  0 < s.nextId ∧
  (∀ c ∈ s.contacts, 0 < c.id ∧ c.id < s.nextId) ∧
  s.contacts.Pairwise (fun a b => a.id ≠ b.id) ∧
  (∀ c ∈ s.contacts, (c.linkPrecedence = .primary ↔ c.linkedId = none)) ∧
  (∀ c ∈ s.contacts, c.deletedAt = none → ∀ lid, c.linkedId = some lid →
    ∃ p ∈ s.contacts, p.id = lid ∧ p.linkPrecedence = .primary ∧ p.deletedAt = none)

/-- Creation-order consistency: rows are stored in strictly ascending id
order with non-decreasing `createdAt` (serial ids are assigned in creation
order), and the clock is at or after every stored `createdAt`. -/
def TimeOrdered (s : Store) : Prop :=
  s.contacts.Pairwise (fun a b => a.id < b.id ∧ a.createdAt ≤ b.createdAt) ∧
  ∀ c ∈ s.contacts, c.createdAt ≤ s.now

/-- Normalized nullable input as produced by the validation collaborator:
absent, or a non-empty string. -/
def NormIn (o : Option String) : Prop :=
  ∀ x, o = some x → x ≠ ""

/-- Pointwise description of what the merge loop does to one row: a merge
target is demoted under the survivor; a live row linked to a merge target is
re-linked to the survivor; every other row is untouched. -/
def mergeTransform (oldestId : Nat) (targetIds : List Nat) (c : Contact) : Contact :=
  if c.id ∈ targetIds then
    { c with linkPrecedence := .secondary, linkedId := some oldestId }
  else if (∃ t ∈ targetIds, c.linkedId = some t) ∧ c.deletedAt = none then
    { c with linkedId := some oldestId }
  else c

/-- The composed effect of one `demoteTarget` pass on a single row:
first the bulk re-link, then the by-id demotion. -/
def demoteStep (oid tid : Nat) (c : Contact) : Contact :=
  let c1 := if c.linkedId = some tid ∧ c.deletedAt = none then { c with linkedId := some oid } else c
  if c1.id = tid then { c1 with linkedId := some oid, linkPrecedence := .secondary } else c1

/-- The emails present in the consolidated identity of the primary with id
`pid`: the non-null emails of that row and of every live row linked to it. -/
def groupEmails (s : Store) (pid : Nat) : List String :=
  (s.contacts.filter (fun c => decide (c.deletedAt = none ∧ (c.id = pid ∨ c.linkedId = some pid)))).filterMap
    (fun c => c.email)

/-- The phone numbers present in the consolidated identity of the primary
with id `pid`. -/
def groupPhones (s : Store) (pid : Nat) : List String :=
  (s.contacts.filter (fun c => decide (c.deletedAt = none ∧ (c.id = pid ∨ c.linkedId = some pid)))).filterMap
    (fun c => c.phoneNumber)

/-- Row `i` of an artificial linked chain of `n` rows: rows `1` to `n - 1`
are secondaries each linking to the next row, row `n` is the primary. -/
def chainContact (n i : Nat) : Contact :=
  if i < n then ⟨i, some "x", none, some (i + 1), .secondary, i, none⟩
  else ⟨i, some "x", none, none, .primary, i, none⟩

/-- A store holding an artificial linked chain of `n` rows with ids
`1` to `n`. -/
def chainStore (n : Nat) : Store :=
  ⟨(List.range n).map (fun j => chainContact n (j + 1)), n + 1, n + 1⟩

/-- The fresh primary row created by Case 1. -/
def newPrimary (s : Store) (email phoneNumber : Option String) : Contact :=
  ⟨s.nextId, email, phoneNumber, none, .primary, s.now, none⟩

/-- The store after Case 1 appends a fresh primary row. -/
def primaryInserted (s : Store) (email phoneNumber : Option String) : Store :=
  ⟨s.contacts ++ [newPrimary s email phoneNumber], s.nextId + 1, s.now⟩

/-- The store after the merge loop has processed targets `T` under survivor
`P`. -/
def mergedStore (s : Store) (P : Contact) (T : List Contact) : Store :=
  (mergeAll s P T).1

/-- Whether the request brings a truthy field that is absent from the
matched rows (the Case 2 versus Case 4 test). -/
def newInfo (ms : List Contact) (email phoneNumber : Option String) : Bool :=
  hasNewField email ((ms.filterMap (fun c => c.email)).filter (fun x => !(x == ""))) ||
  hasNewField phoneNumber
    ((ms.filterMap (fun c => c.phoneNumber)).filter (fun x => !(x == "")))

/-- The store after Case 2 appends a fresh secondary row under primary
`pid`. -/
def insertSecondary (s : Store) (email phoneNumber : Option String) (pid : Nat) : Store :=
  ⟨s.contacts ++ [⟨s.nextId, email, phoneNumber, some pid, .secondary, s.now, none⟩],
    s.nextId + 1, s.now⟩

/-- The store at the end of a matched run: the merged store, plus the Case 2
secondary when the request brought new information. -/
def finalStore (s : Store) (email phoneNumber : Option String)
    (ms : List Contact) (P : Contact) (T : List Contact) : Store :=
  if newInfo ms email phoneNumber then
    insertSecondary (mergedStore s P T) email phoneNumber P.id
  else mergedStore s P T

/-- A Prisma serialization-conflict error (`code = 'P2034'`), the class the
retry wrapper classifies as retryable. -/
def conflictError : JsError :=
  ⟨some "P2034", none, "Transaction failed due to a write conflict"⟩

/-- A store with two primaries sharing one `createdAt` timestamp: row 1
carries only the phone, row 2 carries only the email. -/
def cexStore : Store :=
  ⟨[⟨1, none, some "p", none, .primary, 5, none⟩,
    ⟨2, some "e", none, none, .primary, 5, none⟩], 3, 10⟩

/-- An older primary row (id 1, createdAt 0) used in concrete scenarios. -/
def contactXW : Contact := ⟨1, some "g", some "9", none, .primary, 0, none⟩

/-- A newer primary row (id 2, createdAt 1) used in concrete scenarios. -/
def contactYW : Contact := ⟨2, some "b", some "7", none, .primary, 1, none⟩

/-- A store holding two independent primaries, the merge scenario of the
spec. -/
def mergeStoreW : Store := ⟨[contactXW, contactYW], 3, 5⟩

/-- A lone primary row used in concrete new-information scenarios. -/
def soloContactW : Contact := ⟨1, some "a", some "1", none, .primary, 0, none⟩

/-- A store holding only `soloContactW`. -/
def soloStoreW : Store := ⟨[soloContactW], 2, 5⟩

/-! ### Deduplication lemmas -/

theorem dedupeByAux_sublist {α β : Type} [DecidableEq β] (key : α → β) :
    ∀ (l : List α) (seen : List β), List.Sublist (dedupeByAux key l seen) l := by
  intro l
  induction l with
  | nil => intro seen; simp [dedupeByAux]
  | cons x xs ih =>
    intro seen
    simp only [dedupeByAux]
    split
    · exact (ih _).cons x
    · exact (ih _).cons₂ x

theorem dedupeBy_sublist {α β : Type} [DecidableEq β] (key : α → β) (l : List α) :
    List.Sublist (dedupeBy key l) l :=
  dedupeByAux_sublist key l []

theorem mem_of_mem_dedupeBy {α β : Type} [DecidableEq β] {key : α → β} {l : List α} {a : α}
    (h : a ∈ dedupeBy key l) : a ∈ l :=
  (dedupeBy_sublist key l).subset h

theorem dedupeByAux_keys {α β : Type} [DecidableEq β] (key : α → β) :
    ∀ (l : List α) (seen : List β),
      (∀ a ∈ dedupeByAux key l seen, key a ∉ seen) ∧
      (dedupeByAux key l seen).Pairwise (fun a b => key a ≠ key b) := by
  intro l
  induction l with
  | nil => intro seen; simp [dedupeByAux]
  | cons x xs ih =>
    intro seen
    simp only [dedupeByAux]
    split
    · exact ih seen
    · rename_i hx
      obtain ⟨h1, h2⟩ := ih (key x :: seen)
      refine ⟨?_, ?_⟩
      · intro a ha
        rcases List.mem_cons.mp ha with rfl | ha
        · exact hx
        · intro hs
          exact h1 a ha (List.mem_cons_of_mem _ hs)
      · refine List.pairwise_cons.mpr ⟨?_, h2⟩
        intro b hb heq
        exact h1 b hb (heq ▸ List.mem_cons_self _ _)

theorem dedupeBy_key_nodup {α β : Type} [DecidableEq β] (key : α → β) (l : List α) :
    (dedupeBy key l).Pairwise (fun a b => key a ≠ key b) :=
  (dedupeByAux_keys key l []).2

theorem exists_mem_dedupeByAux_of_mem {α β : Type} [DecidableEq β] (key : α → β) :
    ∀ (l : List α) (seen : List β) (b : α), b ∈ l →
      key b ∈ seen ∨ ∃ a ∈ dedupeByAux key l seen, key a = key b := by
  intro l
  induction l with
  | nil => intro seen b hb; cases hb
  | cons x xs ih =>
    intro seen b hb
    simp only [dedupeByAux]
    rcases List.mem_cons.mp hb with rfl | hb
    · split
      · exact Or.inl (by assumption)
      · exact Or.inr ⟨b, List.mem_cons_self _ _, rfl⟩
    · split
      · exact ih seen b hb
      · rcases ih (key x :: seen) b hb with h | ⟨a, ha, hk⟩
        · rcases List.mem_cons.mp h with h | h
          · exact Or.inr ⟨x, List.mem_cons_self _ _, h.symm⟩
          · exact Or.inl h
        · exact Or.inr ⟨a, List.mem_cons_of_mem _ ha, hk⟩

theorem exists_mem_dedupeBy_of_mem {α β : Type} [DecidableEq β] (key : α → β) {l : List α}
    {b : α} (hb : b ∈ l) : ∃ a ∈ dedupeBy key l, key a = key b := by
  rcases exists_mem_dedupeByAux_of_mem key l [] b hb with h | h
  · cases h
  · exact h

theorem dedupeByAux_eq_nil {α β : Type} [DecidableEq β] (key : α → β) :
    ∀ (l : List α) (seen : List β), (∀ a ∈ l, key a ∈ seen) → dedupeByAux key l seen = [] := by
  intro l
  induction l with
  | nil => intro seen _; rfl
  | cons x xs ih =>
    intro seen h
    simp only [dedupeByAux, if_pos (h x (List.mem_cons_self _ _))]
    exact ih seen (fun a ha => h a (List.mem_cons_of_mem _ ha))

theorem dedupeBy_all_eq {α β : Type} [DecidableEq β] (key : α → β) {l : List α} {P : α}
    (hne : l ≠ []) (h : ∀ a ∈ l, a = P) : dedupeBy key l = [P] := by
  cases l with
  | nil => exact absurd rfl hne
  | cons x xs =>
    have hx : x = P := h x (List.mem_cons_self _ _)
    subst hx
    simp only [dedupeBy, dedupeByAux]
    rw [if_neg (List.not_mem_nil _), dedupeByAux_eq_nil]
    intro a ha
    rw [h a (List.mem_cons_of_mem _ ha)]
    exact List.mem_cons_self _ _

/-! ### Stable sort lemmas -/

theorem insertByCreated_perm (x : Contact) (l : List Contact) :
    List.Perm (insertByCreated x l) (x :: l) := by
  induction l with
  | nil => rfl
  | cons y ys ih =>
    simp only [insertByCreated]
    split
    · exact (ih.cons y).trans (List.Perm.swap x y ys)
    · rfl

theorem sortByCreated_perm (l : List Contact) : List.Perm (sortByCreated l) l := by
  induction l with
  | nil => rfl
  | cons x xs ih =>
    exact (insertByCreated_perm x (sortByCreated xs)).trans (ih.cons x)

theorem mem_sortByCreated {l : List Contact} {a : Contact} :
    a ∈ sortByCreated l ↔ a ∈ l :=
  (sortByCreated_perm l).mem_iff

theorem sorted_insertByCreated {x : Contact} {l : List Contact}
    (h : l.Pairwise (fun a b => a.createdAt ≤ b.createdAt)) :
    (insertByCreated x l).Pairwise (fun a b => a.createdAt ≤ b.createdAt) := by
  induction l with
  | nil => simp [insertByCreated]
  | cons y ys ih =>
    obtain ⟨hy, hys⟩ := List.pairwise_cons.mp h
    simp only [insertByCreated]
    split
    · rename_i hlt
      refine List.pairwise_cons.mpr ⟨?_, ih hys⟩
      intro b hb
      rcases List.mem_cons.mp ((insertByCreated_perm x ys).mem_iff.mp hb) with rfl | h
      · exact Nat.le_of_lt hlt
      · exact hy b h
    · rename_i hnlt
      have hxy : x.createdAt ≤ y.createdAt := Nat.le_of_not_lt hnlt
      refine List.pairwise_cons.mpr ⟨?_, h⟩
      intro b hb
      rcases List.mem_cons.mp hb with rfl | hb
      · exact hxy
      · exact Nat.le_trans hxy (hy b hb)

theorem sorted_sortByCreated (l : List Contact) :
    (sortByCreated l).Pairwise (fun a b => a.createdAt ≤ b.createdAt) := by
  induction l with
  | nil => simp [sortByCreated]
  | cons x xs ih => exact sorted_insertByCreated ih

theorem insertByCreated_of_le {x : Contact} {l : List Contact}
    (h : ∀ y ∈ l, x.createdAt ≤ y.createdAt) : insertByCreated x l = x :: l := by
  cases l with
  | nil => rfl
  | cons y ys =>
    simp only [insertByCreated]
    rw [if_neg (Nat.not_lt.mpr (h y (List.mem_cons_self _ _)))]

theorem sortByCreated_of_sorted {l : List Contact}
    (h : l.Pairwise (fun a b => a.createdAt ≤ b.createdAt)) : sortByCreated l = l := by
  induction l with
  | nil => rfl
  | cons x xs ih =>
    obtain ⟨hx, hxs⟩ := List.pairwise_cons.mp h
    simp only [sortByCreated]
    rw [ih hxs]
    exact insertByCreated_of_le hx

theorem head?_insertByCreated (x : Contact) (l : List Contact) :
    (insertByCreated x l).head? =
      match l.head? with
      | none => some x
      | some y => if y.createdAt < x.createdAt then some y else some x := by
  cases l with
  | nil => rfl
  | cons y ys =>
    by_cases h : y.createdAt < x.createdAt <;> simp [insertByCreated, h]

theorem head?_sortByCreated (l : List Contact) :
    (sortByCreated l).head? = firstMinByCreated l := by
  induction l with
  | nil => rfl
  | cons x xs ih =>
    simp only [sortByCreated, firstMinByCreated, head?_insertByCreated, ih]

theorem firstMinByCreated_eq_none {l : List Contact} :
    firstMinByCreated l = none ↔ l = [] := by
  cases l with
  | nil => simp [firstMinByCreated]
  | cons x xs =>
    simp only [firstMinByCreated]
    constructor
    · intro h
      cases hx : firstMinByCreated xs <;> rw [hx] at h
      · cases h
      · rename_i m
        by_cases hm : m.createdAt < x.createdAt <;> simp [hm] at h
    · intro h; cases h

theorem firstMinByCreated_spec :
    ∀ (l : List Contact) (m : Contact), firstMinByCreated l = some m →
      (∃ l₁ l₂, l = l₁ ++ m :: l₂ ∧ ∀ a ∈ l₁, m.createdAt < a.createdAt) ∧
      ∀ a ∈ l, m.createdAt ≤ a.createdAt := by
  intro l
  induction l with
  | nil => intro m h; cases h
  | cons x xs ih =>
    intro m h
    cases hx : firstMinByCreated xs with
    | none =>
      have hnil : xs = [] := firstMinByCreated_eq_none.mp hx
      subst hnil
      simp only [firstMinByCreated] at h
      cases h
      exact ⟨⟨[], [], rfl, by simp⟩, by simp⟩
    | some m' =>
      have h' : (if m'.createdAt < x.createdAt then some m' else some x) = some m := by
        rw [← h]
        simp [firstMinByCreated, hx]
      obtain ⟨⟨l₁, l₂, hsplit, hstrict⟩, hmin⟩ := ih m' hx
      by_cases hlt : m'.createdAt < x.createdAt
      · rw [if_pos hlt] at h'
        cases h'
        refine ⟨⟨x :: l₁, l₂, by rw [hsplit]; rfl, ?_⟩, ?_⟩
        · intro a ha
          rcases List.mem_cons.mp ha with rfl | ha
          · exact hlt
          · exact hstrict a ha
        · intro a ha
          rcases List.mem_cons.mp ha with rfl | ha
          · exact Nat.le_of_lt hlt
          · exact hmin a ha
      · rw [if_neg hlt] at h'
        cases h'
        have hxm : x.createdAt ≤ m'.createdAt := Nat.le_of_not_lt hlt
        refine ⟨⟨[], xs, rfl, by simp⟩, ?_⟩
        intro a ha
        rcases List.mem_cons.mp ha with rfl | ha
        · exact Nat.le_refl _
        · exact Nat.le_trans hxm (hmin a ha)

/-! ### Lookup lemmas -/

theorem find?_id_of_mem :
    ∀ {l : List Contact}, l.Pairwise (fun a b => a.id ≠ b.id) → ∀ {c : Contact}, c ∈ l →
      l.find? (fun d => d.id == c.id) = some c := by
  intro l
  induction l with
  | nil => intro _ c hc; cases hc
  | cons d ds ih =>
    intro hp c hc
    obtain ⟨hd, hds⟩ := List.pairwise_cons.mp hp
    rcases List.mem_cons.mp hc with rfl | hc
    · simp [List.find?]
    · have hne : d.id ≠ c.id := hd c hc
      rw [List.find?_cons_of_neg _ (by simpa using hne)]
      exact ih hds hc

theorem findUnique_of_mem {s : Store} (hp : s.contacts.Pairwise (fun a b => a.id ≠ b.id))
    {c : Contact} (hc : c ∈ s.contacts) : findUnique s c.id = some c :=
  find?_id_of_mem hp hc

theorem findUnique_mem {s : Store} {cid : Nat} {c : Contact}
    (h : findUnique s cid = some c) : c ∈ s.contacts ∧ c.id = cid := by
  refine ⟨List.mem_of_find?_eq_some h, ?_⟩
  have := List.find?_some h
  simpa using this

theorem eq_of_mem_of_same_id :
    ∀ {l : List Contact}, l.Pairwise (fun a b => a.id ≠ b.id) →
      ∀ {a b : Contact}, a ∈ l → b ∈ l → a.id = b.id → a = b := by
  intro l
  induction l with
  | nil => intro _ a b ha; cases ha
  | cons x xs ih =>
    intro hp a b ha hb hid
    obtain ⟨hx, hxs⟩ := List.pairwise_cons.mp hp
    rcases List.mem_cons.mp ha with rfl | ha'
    · rcases List.mem_cons.mp hb with rfl | hb'
      · rfl
      · exact absurd hid (hx b hb')
    · rcases List.mem_cons.mp hb with rfl | hb'
      · exact absurd hid.symm (hx a ha')
      · exact ih hxs ha' hb' hid

/-! ### Well-formedness accessors -/

theorem WF.nextId_pos {s : Store} (h : WF s) : 0 < s.nextId := h.1

theorem WF.id_bounds {s : Store} (h : WF s) : ∀ c ∈ s.contacts, 0 < c.id ∧ c.id < s.nextId :=
  h.2.1

theorem WF.pairwise_ids {s : Store} (h : WF s) :
    s.contacts.Pairwise (fun a b => a.id ≠ b.id) := h.2.2.1

theorem WF.primary_iff {s : Store} (h : WF s) :
    ∀ c ∈ s.contacts, (c.linkPrecedence = .primary ↔ c.linkedId = none) := h.2.2.2.1

theorem WF.flat {s : Store} (h : WF s) :
    ∀ c ∈ s.contacts, c.deletedAt = none → ∀ lid, c.linkedId = some lid →
      ∃ p ∈ s.contacts, p.id = lid ∧ p.linkPrecedence = .primary ∧ p.deletedAt = none :=
  h.2.2.2.2

/-! ### Match-lookup lemmas -/

theorem mem_match_pool {s : Store} {e p : Option String} {m : Contact}
    (h : m ∈ (if truthyStr e then
        s.contacts.filter (fun c => decide (c.email = e ∧ c.deletedAt = none)) else []) ++
      (if truthyStr p then
        s.contacts.filter (fun c => decide (c.phoneNumber = p ∧ c.deletedAt = none)) else [])) :
    m ∈ s.contacts ∧ m.deletedAt = none ∧
      ((truthyStr e = true ∧ m.email = e) ∨ (truthyStr p = true ∧ m.phoneNumber = p)) := by
  rcases List.mem_append.mp h with h2 | h2
  · by_cases he : truthyStr e = true
    · rw [if_pos he] at h2
      obtain ⟨hm, hprop⟩ := List.mem_filter.mp h2
      simp only [decide_eq_true_eq] at hprop
      exact ⟨hm, hprop.2, Or.inl ⟨he, hprop.1⟩⟩
    · rw [if_neg he] at h2
      cases h2
  · by_cases hp : truthyStr p = true
    · rw [if_pos hp] at h2
      obtain ⟨hm, hprop⟩ := List.mem_filter.mp h2
      simp only [decide_eq_true_eq] at hprop
      exact ⟨hm, hprop.2, Or.inr ⟨hp, hprop.1⟩⟩
    · rw [if_neg hp] at h2
      cases h2

theorem mem_matchesFor {s : Store} {e p : Option String} {m : Contact}
    (h : m ∈ matchesFor s e p) :
    m ∈ s.contacts ∧ m.deletedAt = none ∧
      ((truthyStr e = true ∧ m.email = e) ∨ (truthyStr p = true ∧ m.phoneNumber = p)) := by
  simp only [matchesFor] at h
  exact mem_match_pool (mem_of_mem_dedupeBy h)

theorem mem_matchesFor_of_pool {s : Store} {e p : Option String} {c : Contact}
    (hids : s.contacts.Pairwise (fun a b => a.id ≠ b.id))
    (hpool : c ∈ (if truthyStr e then
        s.contacts.filter (fun c => decide (c.email = e ∧ c.deletedAt = none)) else []) ++
      (if truthyStr p then
        s.contacts.filter (fun c => decide (c.phoneNumber = p ∧ c.deletedAt = none)) else [])) :
    c ∈ matchesFor s e p := by
  obtain ⟨a, ha, hk⟩ := exists_mem_dedupeBy_of_mem (fun c => c.id) hpool
  have ha' : a ∈ matchesFor s e p := ha
  obtain ⟨haS, _, _⟩ := mem_matchesFor ha'
  obtain ⟨hcS, _, _⟩ := mem_match_pool hpool
  have : a = c := eq_of_mem_of_same_id hids haS hcS hk
  exact this ▸ ha'

theorem mem_matchesFor_email {s : Store} {e p : Option String} {c : Contact}
    (hids : s.contacts.Pairwise (fun a b => a.id ≠ b.id))
    (hc : c ∈ s.contacts) (hlive : c.deletedAt = none) (he : truthyStr e = true)
    (hem : c.email = e) : c ∈ matchesFor s e p := by
  refine mem_matchesFor_of_pool hids (List.mem_append.mpr (Or.inl ?_))
  rw [if_pos he]
  exact List.mem_filter.mpr ⟨hc, by simp [hem, hlive]⟩

theorem mem_matchesFor_phone {s : Store} {e p : Option String} {c : Contact}
    (hids : s.contacts.Pairwise (fun a b => a.id ≠ b.id))
    (hc : c ∈ s.contacts) (hlive : c.deletedAt = none) (hp : truthyStr p = true)
    (hpm : c.phoneNumber = p) : c ∈ matchesFor s e p := by
  refine mem_matchesFor_of_pool hids (List.mem_append.mpr (Or.inr ?_))
  rw [if_pos hp]
  exact List.mem_filter.mpr ⟨hc, by simp [hpm, hlive]⟩

/-! ### Root-resolution lemmas -/

/-- The relation between a match and the root primary resolved for it. -/
def RootRel (s : Store) (m r : Contact) : Prop :=
  r ∈ s.contacts ∧ r.linkPrecedence = .primary ∧ r.deletedAt = none ∧
    (r = m ∨ m.linkedId = some r.id)

theorem rootLoopH_ok_primary {s : Store} {cid : Nat} {c : Contact} (fuel : Nat)
    (hc : c.linkPrecedence = .primary) :
    rootLoopH s cid fuel (some c) = (.ok c, 0) := by
  unfold rootLoopH
  rw [if_neg]
  rintro ⟨h1, _⟩
  rw [hc] at h1
  cases h1

theorem findRootPrimary_spec {s : Store} (hWF : WF s) {m : Contact}
    (hm : m ∈ s.contacts) (hlive : m.deletedAt = none) :
    ∃ r, findRootPrimary s (rootArg m) = .ok r ∧ RootRel s m r := by
  by_cases hsec : m.linkPrecedence = .secondary ∧ truthyNat m.linkedId = true
  · obtain ⟨hs1, hs2⟩ := hsec
    cases hml : m.linkedId with
    | none => rw [hml] at hs2; simp [truthyNat] at hs2
    | some lid =>
      obtain ⟨q, hq, hqid, hqprim, hqlive⟩ := hWF.flat m hm hlive lid hml
      have hfu : findUnique s lid = some q := by
        have h := findUnique_of_mem hWF.pairwise_ids hq
        rwa [hqid] at h
      have harg : rootArg m = lid := by
        unfold rootArg
        rw [if_pos ⟨hs1, hs2⟩, hml]
        rfl
      refine ⟨q, ?_, hq, hqprim, hqlive, Or.inr (by rw [hml, hqid])⟩
      rw [harg]
      simp only [findRootPrimary, findRootPrimaryH, hfu]
      rw [rootLoopH_ok_primary 10 hqprim]
  · cases hlp : m.linkPrecedence with
    | primary =>
      have harg : rootArg m = m.id := by
        simp [rootArg, hlp]
      have hfu : findUnique s m.id = some m := findUnique_of_mem hWF.pairwise_ids hm
      refine ⟨m, ?_, hm, hlp, hlive, Or.inl rfl⟩
      rw [harg]
      simp only [findRootPrimary, findRootPrimaryH, hfu]
      rw [rootLoopH_ok_primary 10 hlp]
    | secondary =>
      exfalso
      have hnotnone : m.linkedId ≠ none := by
        intro hnone
        have := (hWF.primary_iff m hm).mpr hnone
        rw [hlp] at this
        cases this
      cases hml : m.linkedId with
      | none => exact hnotnone hml
      | some lid =>
        obtain ⟨q, hq, hqid, _, _⟩ := hWF.flat m hm hlive lid hml
        have hpos : 0 < q.id := (hWF.id_bounds q hq).1
        have hlid : lid ≠ 0 := by omega
        have htr : truthyNat m.linkedId = true := by
          rw [hml]
          simp [truthyNat, hlid]
        exact hsec ⟨hlp, htr⟩

theorem resolveRoots_ok {s : Store} (hWF : WF s) :
    ∀ {ms : List Contact}, (∀ m ∈ ms, m ∈ s.contacts ∧ m.deletedAt = none) →
      ∃ roots, resolveRoots s ms = .ok roots ∧ List.Forall₂ (RootRel s) ms roots := by
  intro ms
  induction ms with
  | nil => exact fun _ => ⟨[], rfl, .nil⟩
  | cons m ms ih =>
    intro h
    obtain ⟨hm, hlive⟩ := h m (List.mem_cons_self _ _)
    obtain ⟨r, hr, hrel⟩ := findRootPrimary_spec hWF hm hlive
    obtain ⟨roots, hroots, hrel2⟩ := ih (fun a ha => h a (List.mem_cons_of_mem _ ha))
    refine ⟨r :: roots, ?_, .cons hrel hrel2⟩
    simp only [resolveRoots, hr, hroots]

theorem dedupeBy_cons {α β : Type} [DecidableEq β] (key : α → β) (x : α) (xs : List α) :
    dedupeBy key (x :: xs) = x :: dedupeByAux key xs [key x] := by
  simp [dedupeBy, dedupeByAux]

theorem sortByCreated_eq_nil {l : List Contact} : sortByCreated l = [] ↔ l = [] := by
  constructor
  · intro h
    have := (sortByCreated_perm l).length_eq
    rw [h] at this
    exact List.length_eq_zero.mp this.symm
  · intro h
    subst h
    rfl

/-! ### Merge-loop characterization -/

theorem demoteTarget_fst (s : Store) (oid tid : Nat) :
    (demoteTarget s oid tid).1 = ⟨s.contacts.map (demoteStep oid tid), s.nextId, s.now⟩ := by
  simp only [demoteTarget, List.map_map]
  rfl

theorem demoteTarget_snd (s : Store) (oid tid : Nat) : (demoteTarget s oid tid).2 = 2 := rfl

theorem mergeTransform_nil (oid : Nat) (c : Contact) : mergeTransform oid [] c = c := by
  simp [mergeTransform]

theorem demoteStep_id (oid tid : Nat) (c : Contact) : (demoteStep oid tid c).id = c.id := by
  simp only [demoteStep]
  split <;> split <;> rfl

theorem mergeTransform_cons {oid : Nat} {t : Contact} {tids : List Nat} {c : Contact}
    (hc1 : c.id = t.id → c.linkedId = none)
    (hc2 : c.id ∈ tids → c.linkedId = none)
    (ht : t.id ∉ tids)
    (ho2 : oid ∉ tids) :
    mergeTransform oid (t.id :: tids) c =
      mergeTransform oid tids (demoteStep oid t.id c) := by
  by_cases h1 : c.id = t.id
  · have hnone := hc1 h1
    simp [mergeTransform, demoteStep, h1, hnone, ht, ho2]
  · by_cases h2 : c.id ∈ tids
    · have hnone := hc2 h2
      simp [mergeTransform, demoteStep, h1, h2, hnone, ht, ho2]
    · by_cases h3 : c.linkedId = some t.id ∧ c.deletedAt = none
      · obtain ⟨h3l, h3d⟩ := h3
        simp [mergeTransform, demoteStep, h1, h2, h3l, h3d, ht, ho2]
      · by_cases h4 : (∃ x ∈ tids, c.linkedId = some x) ∧ c.deletedAt = none
        · obtain ⟨⟨x, hx, hcx⟩, h4d⟩ := h4
          have hxt : x ≠ t.id := by
            intro hxe
            exact h3 ⟨hxe ▸ hcx, h4d⟩
          simp [mergeTransform, demoteStep, h1, h2, hcx, h4d, hxt, ht, ho2, hx]
        · have hLn : ¬((∃ x ∈ t.id :: tids, c.linkedId = some x) ∧ c.deletedAt = none) := by
            rintro ⟨⟨x, hx, hcx⟩, hd⟩
            rcases List.mem_cons.mp hx with rfl | hx'
            · exact h3 ⟨hcx, hd⟩
            · exact h4 ⟨⟨x, hx', hcx⟩, hd⟩
          have hDn : demoteStep oid t.id c = c := by
            simp only [demoteStep]
            rw [if_neg h3, if_neg h1]
          rw [hDn]
          simp only [mergeTransform]
          rw [if_neg (by
            simp only [List.mem_cons]
            rintro (h | h)
            · exact h1 h
            · exact h2 h)]
          rw [if_neg h2, if_neg hLn, if_neg h4]

theorem mergeAll_eq (oldest : Contact) :
    ∀ (targets : List Contact) (s : Store),
      (∀ c ∈ s.contacts, c.id ∈ targets.map (fun t => t.id) → c.linkedId = none) →
      (targets.map (fun t => t.id)).Nodup →
      oldest.id ∉ targets.map (fun t => t.id) →
      mergeAll s oldest targets =
        (⟨s.contacts.map (mergeTransform oldest.id (targets.map (fun t => t.id))),
          s.nextId, s.now⟩, 2 * targets.length) := by
  intro targets
  induction targets with
  | nil =>
    intro s _ _ _
    have hfun : mergeTransform oldest.id (List.map (fun t : Contact => t.id) ([] : List Contact)) =
        fun c => c :=
      funext (fun c => mergeTransform_nil oldest.id c)
    simp only [mergeAll, hfun, List.map_id']
    rfl
  | cons t ts ih =>
    intro s hprim hnodup hold
    rw [List.map_cons] at hnodup hold
    obtain ⟨hmemids, hnodup'⟩ := List.nodup_cons.mp hnodup
    have hold1 : oldest.id ∉ ts.map (fun t => t.id) :=
      fun h => hold (List.mem_cons_of_mem _ h)
    have hprim' : ∀ c ∈ ((demoteTarget s oldest.id t.id).1).contacts,
        c.id ∈ ts.map (fun t => t.id) → c.linkedId = none := by
      rw [demoteTarget_fst]
      intro c hc hcid
      obtain ⟨c0, hc0, hc0e⟩ := List.mem_map.mp hc
      have hid0 : c0.id = c.id := by
        rw [← hc0e]
        exact (demoteStep_id _ _ c0).symm
      have hc0none : c0.linkedId = none :=
        hprim c0 hc0 (by
          rw [List.map_cons]
          exact List.mem_cons_of_mem _ (hid0 ▸ hcid))
      have hc0ne : c0.id ≠ t.id := by
        intro he
        exact hmemids (he ▸ hid0 ▸ hcid)
      have hP : ¬(c0.linkedId = some t.id ∧ c0.deletedAt = none) := by
        rintro ⟨h, _⟩
        rw [hc0none] at h
        exact Option.noConfusion h
      rw [← hc0e]
      simp only [demoteStep]
      rw [if_neg hP, if_neg hc0ne]
      exact hc0none
    have hrec := ih (demoteTarget s oldest.id t.id).1 hprim' hnodup' hold1
    simp only [mergeAll]
    rw [hrec, demoteTarget_fst]
    refine congrArg₂ Prod.mk ?_ ?_
    · refine congrArg (fun l => Store.mk l s.nextId s.now) ?_
      rw [List.map_map]
      refine List.map_congr_left ?_
      intro c hc
      have hc1 : c.id = t.id → c.linkedId = none := by
        intro h
        refine hprim c hc ?_
        rw [List.map_cons]
        exact h ▸ List.mem_cons_self _ _
      have hc2 : c.id ∈ ts.map (fun t => t.id) → c.linkedId = none := by
        intro h
        refine hprim c hc ?_
        rw [List.map_cons]
        exact List.mem_cons_of_mem _ h
      have hkey := mergeTransform_cons hc1 hc2 hmemids hold1
      simp only [Function.comp_apply, List.map_cons]
      exact hkey.symm
    · rw [demoteTarget_snd]
      simp only [List.length_cons]
      ring

/-! ### Field preservation under the merge transform -/

theorem mergeTransform_id (oid : Nat) (tids : List Nat) (c : Contact) :
    (mergeTransform oid tids c).id = c.id := by
  unfold mergeTransform
  split
  · rfl
  · split <;> rfl

theorem mergeTransform_email (oid : Nat) (tids : List Nat) (c : Contact) :
    (mergeTransform oid tids c).email = c.email := by
  unfold mergeTransform
  split
  · rfl
  · split <;> rfl

theorem mergeTransform_phone (oid : Nat) (tids : List Nat) (c : Contact) :
    (mergeTransform oid tids c).phoneNumber = c.phoneNumber := by
  unfold mergeTransform
  split
  · rfl
  · split <;> rfl

theorem mergeTransform_createdAt (oid : Nat) (tids : List Nat) (c : Contact) :
    (mergeTransform oid tids c).createdAt = c.createdAt := by
  unfold mergeTransform
  split
  · rfl
  · split <;> rfl

theorem mergeTransform_deletedAt (oid : Nat) (tids : List Nat) (c : Contact) :
    (mergeTransform oid tids c).deletedAt = c.deletedAt := by
  unfold mergeTransform
  split
  · rfl
  · split <;> rfl

theorem mergeAll_snd (oldest : Contact) :
    ∀ (ts : List Contact) (s : Store), (mergeAll s oldest ts).2 = 2 * ts.length := by
  intro ts
  induction ts with
  | nil => intro s; rfl
  | cons t ts ih =>
    intro s
    simp only [mergeAll, demoteTarget_snd, ih, List.length_cons]
    omega

theorem forall₂_mem_right {α β : Type} {R : α → β → Prop} :
    ∀ {l₁ : List α} {l₂ : List β}, List.Forall₂ R l₁ l₂ → ∀ b ∈ l₂, ∃ a ∈ l₁, R a b := by
  intro l₁ l₂ h
  induction h with
  | nil => intro b hb; cases hb
  | cons hr _ ih =>
    intro b hb
    rcases List.mem_cons.mp hb with rfl | hb
    · exact ⟨_, List.mem_cons_self _ _, hr⟩
    · obtain ⟨a, ha, hab⟩ := ih b hb
      exact ⟨a, List.mem_cons_of_mem _ ha, hab⟩

/-! ### Run characterization -/

theorem identifyContact_nomatch_eq {s : Store} {e p : Option String}
    (h : matchesFor s e p = []) :
    identifyContact s e p =
      .ok ⟨primaryInserted s e p,
        buildResponse (primaryInserted s e p) (newPrimary s e p), 1⟩ := by
  unfold identifyContact
  rw [h]
  rfl

theorem identifyContact_matched_eq {s : Store} {e p : Option String}
    {roots : List Contact} {P : Contact} {T : List Contact}
    (hroots : resolveRoots s (matchesFor s e p) = .ok roots)
    (hsort : sortByCreated (dedupeBy (fun c => c.id) roots) = P :: T)
    (hne : matchesFor s e p ≠ []) :
    identifyContact s e p =
      .ok ⟨finalStore s e p (matchesFor s e p) P T,
        buildResponse (finalStore s e p (matchesFor s e p) P T) P,
        2 * T.length + (if newInfo (matchesFor s e p) e p then 1 else 0)⟩ := by
  unfold identifyContact
  rw [if_neg (by simpa using hne)]
  simp only [hroots, hsort]
  simp only [finalStore, newInfo, mergedStore, insertSecondary, mergeAll_snd]
  by_cases hni : (hasNewField e
      ((List.filterMap (fun c => c.email) (matchesFor s e p)).filter (fun x => !(x == ""))) ||
    hasNewField p
      ((List.filterMap (fun c => c.phoneNumber) (matchesFor s e p)).filter
        (fun x => !(x == "")))) = true
  · simp only [hni, if_pos, mergeAll_snd]
  · simp only [Bool.not_eq_true] at hni
    simp only [hni, Bool.false_eq_true, if_false, mergeAll_snd]

/-- A row that exists, is live, and is a primary. -/
def IsLivePrimary (s : Store) (c : Contact) : Prop :=
  c ∈ s.contacts ∧ c.linkPrecedence = .primary ∧ c.deletedAt = none

theorem matchesFor_live {s : Store} {e p : Option String} :
    ∀ m ∈ matchesFor s e p, m ∈ s.contacts ∧ m.deletedAt = none :=
  fun m hm => ⟨(mem_matchesFor hm).1, (mem_matchesFor hm).2.1⟩

theorem sorted_roots_facts {s : Store} {e p : Option String} (hWF : WF s)
    (hne : matchesFor s e p ≠ []) :
    ∃ roots P T,
      resolveRoots s (matchesFor s e p) = .ok roots ∧
      List.Forall₂ (RootRel s) (matchesFor s e p) roots ∧
      sortByCreated (dedupeBy (fun c => c.id) roots) = P :: T ∧
      IsLivePrimary s P ∧
      (∀ t ∈ T, IsLivePrimary s t) ∧
      P.id ∉ T.map (fun t => t.id) ∧
      (T.map (fun t => t.id)).Nodup ∧
      (∀ c ∈ s.contacts, c.id ∈ T.map (fun t => t.id) → c.linkedId = none) ∧
      List.Pairwise (fun a b => a.createdAt ≤ b.createdAt) (P :: T) := by
  obtain ⟨roots, hroots, hrel⟩ := resolveRoots_ok hWF matchesFor_live
  have hrootsne : roots ≠ [] := by
    intro hnil
    subst hnil
    exact hne (List.forall₂_nil_right_iff.mp hrel)
  have hrootmem : ∀ r ∈ roots, IsLivePrimary s r := by
    intro r hr
    obtain ⟨m, _, hR⟩ := forall₂_mem_right hrel r hr
    exact ⟨hR.1, hR.2.1, hR.2.2.1⟩
  have hDne : dedupeBy (fun c => c.id) roots ≠ [] := by
    cases roots with
    | nil => exact absurd rfl hrootsne
    | cons x xs =>
      rw [dedupeBy_cons]
      exact List.cons_ne_nil _ _
  have hDpair : (dedupeBy (fun c => c.id) roots).Pairwise (fun a b => a.id ≠ b.id) :=
    dedupeBy_key_nodup _ roots
  have hDmem : ∀ r ∈ dedupeBy (fun c => c.id) roots, IsLivePrimary s r :=
    fun r hr => hrootmem r (mem_of_mem_dedupeBy hr)
  cases hsort : sortByCreated (dedupeBy (fun c => c.id) roots) with
  | nil => exact absurd (sortByCreated_eq_nil.mp hsort) hDne
  | cons P T =>
    have hperm : List.Perm (P :: T) (dedupeBy (fun c => c.id) roots) := by
      rw [← hsort]
      exact sortByCreated_perm _
    have hmemPT : ∀ r ∈ P :: T, IsLivePrimary s r :=
      fun r hr => hDmem r (hperm.mem_iff.mp hr)
    have hpairPT : (P :: T).Pairwise (fun a b => a.id ≠ b.id) := by
      have h1 : ((dedupeBy (fun c => c.id) roots).map (fun c => c.id)).Nodup :=
        List.pairwise_map.mpr hDpair
      have h2 : ((P :: T).map (fun c => c.id)).Nodup :=
        (List.Perm.nodup_iff (hperm.map (fun c => c.id))).mpr h1
      exact List.pairwise_map.mp h2
    obtain ⟨hPid, hTpair⟩ := List.pairwise_cons.mp hpairPT
    refine ⟨roots, P, T, hroots, hrel, hsort, hmemPT P (List.mem_cons_self _ _),
      fun t ht => hmemPT t (List.mem_cons_of_mem _ ht), ?_, ?_, ?_, ?_⟩
    · intro hmem
      obtain ⟨t, ht, hteq⟩ := List.mem_map.mp hmem
      exact hPid t ht hteq.symm
    · exact List.pairwise_map.mpr hTpair
    · intro c hc hcid
      obtain ⟨t, ht, hteq⟩ := List.mem_map.mp hcid
      have htlp := hmemPT t (List.mem_cons_of_mem _ ht)
      have hct : c = t := eq_of_mem_of_same_id hWF.pairwise_ids hc htlp.1 hteq.symm
      subst hct
      exact (hWF.primary_iff c htlp.1).mp htlp.2.1
    · rw [← hsort]
      exact sorted_sortByCreated _

/-! ### Invariant preservation -/

theorem mergeTransform_fixed {oid : Nat} {tids : List Nat} {c : Contact}
    (h1 : c.id ∉ tids) (h2 : c.linkedId = none) : mergeTransform oid tids c = c := by
  unfold mergeTransform
  rw [if_neg h1, if_neg]
  rintro ⟨⟨t, _, hct⟩, _⟩
  rw [h2] at hct
  exact Option.noConfusion hct

theorem mergeTransform_cases (oid : Nat) (tids : List Nat) (c : Contact) :
    (c.id ∈ tids ∧
      mergeTransform oid tids c = { c with linkPrecedence := .secondary, linkedId := some oid }) ∨
    (c.id ∉ tids ∧ (∃ t ∈ tids, c.linkedId = some t) ∧ c.deletedAt = none ∧
      mergeTransform oid tids c = { c with linkedId := some oid }) ∨
    (c.id ∉ tids ∧ ¬((∃ t ∈ tids, c.linkedId = some t) ∧ c.deletedAt = none) ∧
      mergeTransform oid tids c = c) := by
  by_cases h1 : c.id ∈ tids
  · refine Or.inl ⟨h1, ?_⟩
    unfold mergeTransform
    rw [if_pos h1]
  · by_cases h2 : (∃ t ∈ tids, c.linkedId = some t) ∧ c.deletedAt = none
    · refine Or.inr (Or.inl ⟨h1, h2.1, h2.2, ?_⟩)
      unfold mergeTransform
      rw [if_neg h1, if_pos h2]
    · refine Or.inr (Or.inr ⟨h1, h2, ?_⟩)
      unfold mergeTransform
      rw [if_neg h1, if_neg h2]

theorem WF_merged {s : Store} (hWF : WF s) {P : Contact} {tids : List Nat}
    (hP : IsLivePrimary s P)
    (hPid : P.id ∉ tids) :
    WF ⟨s.contacts.map (mergeTransform P.id tids), s.nextId, s.now⟩ := by
  obtain ⟨hPmem, hPprim, hPlive⟩ := hP
  have hPnone : P.linkedId = none := (hWF.primary_iff P hPmem).mp hPprim
  have hPfix : mergeTransform P.id tids P = P := mergeTransform_fixed hPid hPnone
  have hPmem' : P ∈ s.contacts.map (mergeTransform P.id tids) := by
    have h := List.mem_map_of_mem (mergeTransform P.id tids) hPmem
    rwa [hPfix] at h
  refine ⟨hWF.nextId_pos, ?_, ?_, ?_, ?_⟩
  · intro c' hc'
    obtain ⟨c, hc, hce⟩ := List.mem_map.mp hc'
    rw [← hce, mergeTransform_id]
    exact hWF.id_bounds c hc
  · refine List.pairwise_map.mpr ?_
    refine hWF.pairwise_ids.imp ?_
    intro a b h
    rw [mergeTransform_id, mergeTransform_id]
    exact h
  · intro c' hc'
    obtain ⟨c, hc, hce⟩ := List.mem_map.mp hc'
    have hciff := hWF.primary_iff c hc
    rcases mergeTransform_cases P.id tids c with ⟨_, he⟩ | ⟨_, _, _, he⟩ | ⟨_, _, he⟩
    · rw [← hce, he]
      constructor
      · intro h; cases h
      · intro h; cases h
    · rw [← hce, he]
      rename_i hex _
      obtain ⟨t, _, hct⟩ := hex
      have : c.linkPrecedence = .secondary := by
        cases hlp : c.linkPrecedence with
        | primary =>
          rw [hciff.mp hlp] at hct
          exact Option.noConfusion hct
        | secondary => rfl
      rw [this]
      constructor
      · intro h; cases h
      · intro h; cases h
    · rw [← hce, he]
      exact hciff
  · intro c' hc' hlive' lid hlid
    obtain ⟨c, hc, hce⟩ := List.mem_map.mp hc'
    rcases mergeTransform_cases P.id tids c with ⟨_, he⟩ | ⟨_, _, _, he⟩ | ⟨hnid, hnrel, he⟩
    · rw [← hce, he] at hlid
      simp only [Option.some.injEq] at hlid
      exact ⟨P, hPmem', by rw [← hlid], hPprim, hPlive⟩
    · rw [← hce, he] at hlid
      simp only [Option.some.injEq] at hlid
      exact ⟨P, hPmem', by rw [← hlid], hPprim, hPlive⟩
    · rw [← hce, he] at hlid hlive'
      obtain ⟨q, hq, hqid, hqprim, hqlive⟩ := hWF.flat c hc hlive' lid hlid
      have hqnone : q.linkedId = none := (hWF.primary_iff q hq).mp hqprim
      have hlidnot : lid ∉ tids := by
        intro hmem
        exact hnrel ⟨⟨lid, hmem, hlid⟩, hlive'⟩
      have hqfix : mergeTransform P.id tids q = q :=
        mergeTransform_fixed (hqid ▸ hlidnot) hqnone
      refine ⟨q, ?_, hqid, hqprim, hqlive⟩
      rw [← hqfix]
      exact List.mem_map_of_mem _ hq

theorem WF_insertSecondary {s : Store} (hWF : WF s) (e p : Option String) {pid : Nat}
    (hex : ∃ q ∈ s.contacts, q.id = pid ∧ q.linkPrecedence = .primary ∧ q.deletedAt = none) :
    WF (insertSecondary s e p pid) := by
  unfold insertSecondary
  obtain ⟨q, hq, hqid, hqprim, hqlive⟩ := hex
  refine ⟨Nat.lt_succ_of_lt hWF.nextId_pos, ?_, ?_, ?_, ?_⟩
  · intro c hc
    rcases List.mem_append.mp hc with hc | hc
    · have := hWF.id_bounds c hc
      show 0 < c.id ∧ c.id < s.nextId + 1
      omega
    · rcases List.mem_singleton.mp hc with rfl
      exact ⟨hWF.nextId_pos, Nat.lt_succ_self _⟩
  · refine List.pairwise_append.mpr ⟨hWF.pairwise_ids, List.pairwise_singleton _ _, ?_⟩
    intro a ha b hb
    rcases List.mem_singleton.mp hb with rfl
    have := hWF.id_bounds a ha
    show a.id ≠ s.nextId
    omega
  · intro c hc
    rcases List.mem_append.mp hc with hc | hc
    · exact hWF.primary_iff c hc
    · rcases List.mem_singleton.mp hc with rfl
      constructor
      · intro h; cases h
      · intro h; cases h
  · intro c hc hlive lid hlid
    rcases List.mem_append.mp hc with hc | hc
    · obtain ⟨q', hq', hq'id, hq'prim, hq'live⟩ := hWF.flat c hc hlive lid hlid
      exact ⟨q', List.mem_append.mpr (Or.inl hq'), hq'id, hq'prim, hq'live⟩
    · rcases List.mem_singleton.mp hc with rfl
      simp only [Option.some.injEq] at hlid
      exact ⟨q, List.mem_append.mpr (Or.inl hq), by rw [← hlid, hqid], hqprim, hqlive⟩

theorem WF_primaryInserted {s : Store} (hWF : WF s) (e p : Option String) :
    WF (primaryInserted s e p) := by
  unfold primaryInserted newPrimary
  refine ⟨Nat.lt_succ_of_lt hWF.nextId_pos, ?_, ?_, ?_, ?_⟩
  · intro c hc
    rcases List.mem_append.mp hc with hc | hc
    · have := hWF.id_bounds c hc
      show 0 < c.id ∧ c.id < s.nextId + 1
      omega
    · rcases List.mem_singleton.mp hc with rfl
      exact ⟨hWF.nextId_pos, Nat.lt_succ_self _⟩
  · refine List.pairwise_append.mpr ⟨hWF.pairwise_ids, List.pairwise_singleton _ _, ?_⟩
    intro a ha b hb
    rcases List.mem_singleton.mp hb with rfl
    have := hWF.id_bounds a ha
    show a.id ≠ s.nextId
    omega
  · intro c hc
    rcases List.mem_append.mp hc with hc | hc
    · exact hWF.primary_iff c hc
    · rcases List.mem_singleton.mp hc with rfl
      exact ⟨fun _ => rfl, fun _ => rfl⟩
  · intro c hc hlive lid hlid
    rcases List.mem_append.mp hc with hc | hc
    · obtain ⟨q', hq', hq'id, hq'prim, hq'live⟩ := hWF.flat c hc hlive lid hlid
      exact ⟨q', List.mem_append.mpr (Or.inl hq'), hq'id, hq'prim, hq'live⟩
    · rcases List.mem_singleton.mp hc with rfl
      exact Option.noConfusion hlid

theorem TimeOrdered_merged {s : Store} (hTO : TimeOrdered s) (oid : Nat) (tids : List Nat) :
    TimeOrdered ⟨s.contacts.map (mergeTransform oid tids), s.nextId, s.now⟩ := by
  refine ⟨?_, ?_⟩
  · refine List.pairwise_map.mpr ?_
    refine hTO.1.imp ?_
    intro a b h
    rw [mergeTransform_id, mergeTransform_id, mergeTransform_createdAt, mergeTransform_createdAt]
    exact h
  · intro c' hc'
    obtain ⟨c, hc, hce⟩ := List.mem_map.mp hc'
    rw [← hce, mergeTransform_createdAt]
    exact hTO.2 c hc

theorem TimeOrdered_append {s : Store} (hTO : TimeOrdered s) (hWF : WF s) {c : Contact}
    (hcid : c.id = s.nextId) (hcat : c.createdAt = s.now) :
    TimeOrdered ⟨s.contacts ++ [c], s.nextId + 1, s.now⟩ := by
  refine ⟨?_, ?_⟩
  · refine List.pairwise_append.mpr ⟨hTO.1, List.pairwise_singleton _ _, ?_⟩
    intro a ha b hb
    rcases List.mem_singleton.mp hb with rfl
    have h1 := hWF.id_bounds a ha
    have h2 := hTO.2 a ha
    constructor
    · omega
    · rw [hcat]
      exact h2
  · intro d hd
    rcases List.mem_append.mp hd with hd | hd
    · exact hTO.2 d hd
    · rcases List.mem_singleton.mp hd with rfl
      rw [hcat]

/-! ### Support for the no-match case -/

theorem matchesFor_eq_nil {s : Store} {e p : Option String}
    (h : ∀ c ∈ s.contacts, c.deletedAt = none →
      ¬(truthyStr e = true ∧ c.email = e) ∧ ¬(truthyStr p = true ∧ c.phoneNumber = p)) :
    matchesFor s e p = [] := by
  unfold matchesFor
  have he : (if truthyStr e then
      s.contacts.filter (fun c => decide (c.email = e ∧ c.deletedAt = none)) else []) = [] := by
    by_cases ht : truthyStr e = true
    · rw [if_pos ht]
      rw [List.filter_eq_nil_iff]
      intro c hc
      simp only [decide_eq_true_eq, not_and]
      intro hce hcd
      exact (h c hc hcd).1 ⟨ht, hce⟩
    · rw [if_neg ht]
  have hp : (if truthyStr p then
      s.contacts.filter (fun c => decide (c.phoneNumber = p ∧ c.deletedAt = none)) else []) = [] := by
    by_cases ht : truthyStr p = true
    · rw [if_pos ht]
      rw [List.filter_eq_nil_iff]
      intro c hc
      simp only [decide_eq_true_eq, not_and]
      intro hcp hcd
      exact (h c hc hcd).2 ⟨ht, hcp⟩
    · rw [if_neg ht]
  rw [he, hp]
  rfl

theorem buildResponse_fresh {s : Store} (hWF : WF s) (e p : Option String)
    (hne : NormIn e) (hnp : NormIn p) :
    buildResponse (primaryInserted s e p) (newPrimary s e p) =
      ⟨s.nextId, e.toList, p.toList, []⟩ := by
  have hsec : (primaryInserted s e p).contacts.filter
      (fun c => decide (c.linkedId = some (newPrimary s e p).id ∧ c.deletedAt = none)) = [] := by
    rw [List.filter_eq_nil_iff]
    intro c hc
    simp only [decide_eq_true_eq, not_and]
    intro hlid hlive
    rcases List.mem_append.mp hc with hc | hc
    · obtain ⟨q, hq, hqid, _, _⟩ := hWF.flat c hc hlive _ hlid
      have := hWF.id_bounds q hq
      simp only [newPrimary] at hqid
      omega
    · rcases List.mem_singleton.mp hc with rfl
      exact Option.noConfusion hlid
  unfold buildResponse
  rw [hsec]
  simp only [sortByCreated, List.map_nil]
  have hemail : (([newPrimary s e p].filterMap (fun c => c.email)).filter
      (fun x => !(x == ""))) = e.toList := by
    cases e with
    | none => rfl
    | some x =>
      have hx : x ≠ "" := hne x rfl
      simp [newPrimary, List.filterMap, hx]
  have hphone : (([newPrimary s e p].filterMap (fun c => c.phoneNumber)).filter
      (fun x => !(x == ""))) = p.toList := by
    cases p with
    | none => rfl
    | some x =>
      have hx : x ≠ "" := hnp x rfl
      simp [newPrimary, List.filterMap, hx]
  rw [hemail, hphone]
  cases e with
  | none =>
    cases p with
    | none => rfl
    | some y => rfl
  | some x =>
    cases p with
    | none => rfl
    | some y => rfl

/-! ### Hop-bound support -/

theorem rootLoopH_hops_le (s : Store) (cid : Nat) :
    ∀ (fuel : Nat) (oc : Option Contact), (rootLoopH s cid fuel oc).2 ≤ fuel := by
  intro fuel
  induction fuel with
  | zero =>
    intro oc
    cases oc with
    | none => exact Nat.le_refl _
    | some c =>
      unfold rootLoopH
      split
      · exact Nat.le_refl _
      · exact Nat.le_refl _
  | succ fuel ih =>
    intro oc
    cases oc with
    | none => exact Nat.zero_le _
    | some c =>
      unfold rootLoopH
      split
      · exact Nat.succ_le_succ (ih _)
      · exact Nat.zero_le _

theorem chainContact_id (n i : Nat) : (chainContact n i).id = i := by
  unfold chainContact
  split <;> rfl

theorem chainStore_pairwise_ids (n : Nat) :
    (chainStore n).contacts.Pairwise (fun a b => a.id ≠ b.id) := by
  unfold chainStore
  refine List.pairwise_map.mpr ?_
  refine (List.pairwise_lt_range n).imp ?_
  intro a b h
  rw [chainContact_id, chainContact_id]
  omega

theorem chainStore_findUnique {n i : Nat} (h1 : 1 ≤ i) (h2 : i ≤ n) :
    findUnique (chainStore n) i = some (chainContact n i) := by
  have hmem : chainContact n i ∈ (chainStore n).contacts := by
    unfold chainStore
    refine List.mem_map.mpr ⟨i - 1, List.mem_range.mpr (by omega), ?_⟩
    congr 1
    omega
  have h := find?_id_of_mem (chainStore_pairwise_ids n) hmem
  rwa [chainContact_id] at h

theorem chain_rootLoop (n : Nat) :
    ∀ (fuel i : Nat), 1 ≤ i → i + fuel < n →
      rootLoopH (chainStore n) 1 fuel (some (chainContact n i)) =
        (.error (circularLinkError 1), fuel) := by
  intro fuel
  induction fuel with
  | zero =>
    intro i h1 h2
    unfold rootLoopH
    rw [if_pos]
    unfold chainContact
    rw [if_pos (by omega)]
    constructor
    · rfl
    · show truthyNat (some (i + 1)) = true
      simp [truthyNat]
  | succ fuel ih =>
    intro i h1 h2
    unfold rootLoopH
    rw [if_pos]
    · have hlk : (chainContact n i).linkedId = some (i + 1) := by
        unfold chainContact
        rw [if_pos (by omega)]
      rw [hlk]
      have hfu : findUnique (chainStore n) ((some (i + 1)).getD 0) = some (chainContact n (i + 1)) := by
        simp only [Option.getD]
        exact chainStore_findUnique (by omega) (by omega)
      rw [hfu]
      simp only [ih (i + 1) (by omega) (by omega)]
    · unfold chainContact
      rw [if_pos (by omega)]
      constructor
      · rfl
      · show truthyNat (some (i + 1)) = true
        simp [truthyNat]

theorem chain_deep_error {n : Nat} (h : 12 ≤ n) :
    findRootPrimary (chainStore n) 1 = .error (circularLinkError 1) := by
  unfold findRootPrimary findRootPrimaryH
  rw [chainStore_findUnique (Nat.le_refl 1) (by omega)]
  rw [chain_rootLoop n 10 1 (Nat.le_refl 1) (by omega)]

/-! ### Whole-run invariant preservation -/

theorem P_mem_merged {s : Store} (hWF : WF s) {P : Contact} {tids : List Nat}
    (hP : IsLivePrimary s P) (hPid : P.id ∉ tids) :
    P ∈ s.contacts.map (mergeTransform P.id tids) := by
  have hPnone : P.linkedId = none := (hWF.primary_iff P hP.1).mp hP.2.1
  have h := List.mem_map_of_mem (mergeTransform P.id tids) hP.1
  rwa [mergeTransform_fixed hPid hPnone] at h

theorem mergedStore_eq {s : Store} {P : Contact} {T : List Contact}
    (hP : P.id ∉ T.map (fun t => t.id))
    (hTnodup : (T.map (fun t => t.id)).Nodup)
    (hprim : ∀ c ∈ s.contacts, c.id ∈ T.map (fun t => t.id) → c.linkedId = none) :
    mergedStore s P T =
      ⟨s.contacts.map (mergeTransform P.id (T.map (fun t => t.id))), s.nextId, s.now⟩ := by
  unfold mergedStore
  rw [mergeAll_eq P T s hprim hTnodup hP]

theorem WF_finalStore {s : Store} (e p : Option String) (ms : List Contact) {P : Contact}
    {T : List Contact} (hWF : WF s)
    (hP : IsLivePrimary s P)
    (hPid : P.id ∉ T.map (fun t => t.id))
    (hTnodup : (T.map (fun t => t.id)).Nodup)
    (hprim : ∀ c ∈ s.contacts, c.id ∈ T.map (fun t => t.id) → c.linkedId = none) :
    WF (finalStore s e p ms P T) := by
  have hms := mergedStore_eq hPid hTnodup hprim
  have hWF1 : WF (mergedStore s P T) := by
    rw [hms]
    exact WF_merged hWF hP hPid
  unfold finalStore
  split
  · refine WF_insertSecondary hWF1 e p ?_
    refine ⟨P, ?_, rfl, hP.2.1, hP.2.2⟩
    rw [hms]
    exact P_mem_merged hWF hP hPid
  · exact hWF1

theorem identifyContact_ok_WF {s : Store} (e p : Option String) (hWF : WF s) :
    ∃ res, identifyContact s e p = .ok res ∧ WF res.store := by
  by_cases hne : matchesFor s e p = []
  · exact ⟨_, identifyContact_nomatch_eq hne, WF_primaryInserted hWF e p⟩
  · obtain ⟨roots, P, T, hroots, hrel, hsort, hP, hT, hPid, hTnodup, hprim, hsorted⟩ :=
      sorted_roots_facts hWF hne
    exact ⟨_, identifyContact_matched_eq hroots hsort hne,
      WF_finalStore e p (matchesFor s e p) hWF hP hPid hTnodup hprim⟩

theorem WF_nil : WF ⟨[], 1, 0⟩ := by
  refine ⟨Nat.one_pos, ?_, List.Pairwise.nil, ?_, ?_⟩ <;> simp

/-! ### Retry-loop facts -/

theorem withRetryLoop_succ_error {α : Type} (attempts : Nat → Except JsError α)
    (fuel i : Nat) {e : JsError} (h : attempts i = .error e) :
    withRetryLoop attempts (fuel + 1) i =
      if isRetryable e = true ∧ 0 < fuel then
        ((withRetryLoop attempts fuel (i + 1)).1, (withRetryLoop attempts fuel (i + 1)).2 + 1)
      else (.error e, 1) := by
  simp only [withRetryLoop, h]

theorem withRetryLoop_succ_ok {α : Type} (attempts : Nat → Except JsError α)
    (fuel i : Nat) {v : α} (h : attempts i = .ok v) :
    withRetryLoop attempts (fuel + 1) i = (.ok v, 1) := by
  simp only [withRetryLoop, h]

theorem withRetryLoop_count_le {α : Type} (attempts : Nat → Except JsError α) :
    ∀ (fuel i : Nat), (withRetryLoop attempts fuel i).2 ≤ fuel := by
  intro fuel
  induction fuel with
  | zero => intro i; exact Nat.le_refl _
  | succ fuel ih =>
    intro i
    cases ha : attempts i with
    | ok v =>
      rw [withRetryLoop_succ_ok attempts fuel i ha]
      exact Nat.succ_le_succ (Nat.zero_le _)
    | error e =>
      rw [withRetryLoop_succ_error attempts fuel i ha]
      split
      · exact Nat.succ_le_succ (ih _)
      · exact Nat.succ_le_succ (Nat.zero_le _)

theorem withRetryLoop_retryable {α : Type} (attempts : Nat → Except JsError α) :
    ∀ (fuel i k : Nat), k + 1 < (withRetryLoop attempts fuel i).2 →
      ∃ e, attempts (i + k) = .error e ∧ isRetryable e = true := by
  intro fuel
  induction fuel with
  | zero =>
    intro i k hk
    simp only [withRetryLoop] at hk
    omega
  | succ fuel ih =>
    intro i k hk
    cases ha : attempts i with
    | ok v =>
      rw [withRetryLoop_succ_ok attempts fuel i ha] at hk
      simp only at hk
      omega
    | error e =>
      rw [withRetryLoop_succ_error attempts fuel i ha] at hk
      split at hk
      · rename_i hcond
        simp only at hk
        cases k with
        | zero => exact ⟨e, by rw [Nat.add_zero]; exact ha, hcond.1⟩
        | succ k' =>
          have hk' : k' + 1 < (withRetryLoop attempts fuel (i + 1)).2 := by omega
          obtain ⟨e', he', hr'⟩ := ih (i + 1) k' hk'
          exact ⟨e', by rw [show i + (k' + 1) = i + 1 + k' by omega]; exact he', hr'⟩
      · simp only at hk
        omega

/-- Claim C7: if a store satisfies the linking invariants (`linkPrecedence =
primary` iff `linkedId` is absent on every row, and every live secondary's
`linkedId` denotes a live primary row) then any `identifyContact` call with
at least one non-null input succeeds and leaves a store satisfying the same
invariants (soft-deleted rows are outside every query the engine performs,
so the flatness invariant is read on live rows). -/
theorem c7_invariant_preservation (s : Store) (e p : Option String) (hWF : WF s)
    (_hone : e ≠ none ∨ p ≠ none) :
    ∃ res, identifyContact s e p = .ok res ∧ WF res.store :=
  identifyContact_ok_WF e p hWF

/-- Witness for C7 at a concrete input. -/
theorem c7_witness :
    ∃ res, identifyContact ⟨[], 1, 0⟩ (some "a") none = .ok res ∧ WF res.store :=
  c7_invariant_preservation ⟨[], 1, 0⟩ (some "a") none WF_nil (Or.inl (by decide))

/-- Claim C8: `findRootPrimary` always terminates within the hop bound (it
follows at most 10 `linkedId` hops on any store); on an artificial chain
deeper than the bound (12 or more rows) it returns the circular-link
consistency error instead of looping; and that error carries no conflict
code, so the retry wrapper surfaces it after a single execution of the
body. -/
theorem c8_bounded_hop_resolution :
    (∀ (s : Store) (cid : Nat), (findRootPrimaryH s cid).2 ≤ 10) ∧
    (∀ n : Nat, 12 ≤ n →
      findRootPrimary (chainStore n) 1 = .error (circularLinkError 1)) ∧
    (∀ cid : Nat, isRetryable (circularLinkError cid) = false ∧
      withRetry (fun _ => (.error (circularLinkError cid) : Except JsError TxResult)) 3 =
        (.error (circularLinkError cid), 1)) := by
  refine ⟨?_, ?_, ?_⟩
  · intro s cid
    exact rootLoopH_hops_le s cid 10 _
  · intro n hn
    exact chain_deep_error hn
  · intro cid
    exact ⟨rfl, rfl⟩

/-- Witness for C8 at the 12-row chain. -/
theorem c8_witness :
    (findRootPrimaryH (chainStore 12) 1).2 ≤ 10 ∧
    findRootPrimary (chainStore 12) 1 = .error (circularLinkError 1) ∧
    (isRetryable (circularLinkError 1) = false ∧
      withRetry (fun _ => (.error (circularLinkError 1) : Except JsError TxResult)) 3 =
        (.error (circularLinkError 1), 1)) :=
  ⟨c8_bounded_hop_resolution.1 (chainStore 12) 1,
   c8_bounded_hop_resolution.2.1 12 (by decide),
   c8_bounded_hop_resolution.2.2 1⟩

/-- Claim C9 (amended): the retry wrapper executes the body at most 3 times;
every re-execution is preceded by a failure classified as a serialization
conflict (`P2034` or meta code `40001`); a non-conflict failure on first
execution propagates unmodified with no re-execution; and exhausting all
3 attempts surfaces the third conflict error itself — not a distinct
exhaustion error (the `Max retries reached` throw after the loop is
unreachable whenever the loop runs). -/
theorem c9_retry_policy :
    (∀ attempts : Nat → Except JsError TxResult, (withRetry attempts 3).2 ≤ 3) ∧
    (∀ (attempts : Nat → Except JsError TxResult) (i : Nat),
      i + 1 < (withRetry attempts 3).2 →
      ∃ e, attempts i = .error e ∧ isRetryable e = true) ∧
    (∀ (attempts : Nat → Except JsError TxResult) (e : JsError),
      attempts 0 = .error e → isRetryable e = false →
      withRetry attempts 3 = (.error e, 1)) ∧
    (∀ (attempts : Nat → Except JsError TxResult) (e₀ e₁ e₂ : JsError),
      attempts 0 = .error e₀ → isRetryable e₀ = true →
      attempts 1 = .error e₁ → isRetryable e₁ = true →
      attempts 2 = .error e₂ →
      withRetry attempts 3 = (.error e₂, 3)) := by
  refine ⟨?_, ?_, ?_, ?_⟩
  · intro attempts
    exact withRetryLoop_count_le attempts 3 0
  · intro attempts i hi
    have h := withRetryLoop_retryable attempts 3 0 i hi
    simpa using h
  · intro attempts e h0 hr
    unfold withRetry
    rw [withRetryLoop_succ_error attempts 2 0 h0]
    rw [if_neg (by
      rintro ⟨h1, _⟩
      rw [hr] at h1
      exact Bool.false_ne_true h1)]
  · intro attempts e₀ e₁ e₂ h0 hr0 h1 hr1 h2
    unfold withRetry
    rw [withRetryLoop_succ_error attempts 2 0 h0, if_pos ⟨hr0, by omega⟩]
    simp only [Nat.zero_add]
    rw [withRetryLoop_succ_error attempts 1 1 h1, if_pos ⟨hr1, by omega⟩]
    rw [withRetryLoop_succ_error attempts 0 2 h2]
    rw [if_neg (by rintro ⟨_, h⟩; omega)]

/-- Counterexample for C9 as stated: a body that always fails with a Prisma
`P2034` conflict exhausts all 3 attempts and the caller receives that very
conflict error — not the distinct `Max retries reached` error (the only
candidate for the spec's `ConflictExhausted`), which remains unreachable. -/
theorem c9_counterexample :
    withRetry (fun _ => (.error conflictError : Except JsError TxResult)) 3 =
      (.error conflictError, 3) ∧
    conflictError ≠ maxRetriesError ∧ isRetryable conflictError = true := by
  refine ⟨rfl, by decide, rfl⟩

/-- Witness for C9 at a concrete non-retryable failure. -/
theorem c9_witness :
    withRetry (fun _ => (.error (contactNotFoundError 7) : Except JsError TxResult)) 3 =
      (.error (contactNotFoundError 7), 1) :=
  c9_retry_policy.2.2.1 _ _ rfl rfl

/-- Counterexample for C10 as stated: invoking the engine with both inputs
null does not fail with any error — it creates a fresh primary row with both
identity fields null (one write) and returns it. -/
theorem c10_counterexample :
    identifyContact ⟨[], 1, 0⟩ none none =
      .ok ⟨⟨[⟨1, none, none, none, .primary, 0, none⟩], 2, 0⟩, ⟨1, [], [], []⟩, 1⟩ := by
  rfl

/-- Claim C10 (amended): on any well-formed store, invoking the engine with
both inputs null performs no validation: it treats the request as a no-match
and creates one fresh primary row with both fields null, returning its view
(the upstream validation collaborator is the only guard). -/
theorem c10_both_null_creates (s : Store) (hWF : WF s) :
    identifyContact s none none =
      .ok ⟨primaryInserted s none none, ⟨s.nextId, [], [], []⟩, 1⟩ := by
  have hm : matchesFor s none none = [] := rfl
  rw [identifyContact_nomatch_eq hm,
    buildResponse_fresh hWF none none (fun x hx => Option.noConfusion hx)
      (fun x hx => Option.noConfusion hx)]
  rfl

/-- Witness for the amended C10 at the empty store. -/
theorem c10_witness :
    identifyContact ⟨[], 1, 0⟩ none none =
      .ok ⟨primaryInserted ⟨[], 1, 0⟩ none none, ⟨1, [], [], []⟩, 1⟩ :=
  c10_both_null_creates ⟨[], 1, 0⟩ WF_nil

/-! ### Survivor selection -/

theorem WF_cexStore : WF cexStore := by
  refine ⟨by decide, ?_, ?_, ?_, ?_⟩
  · intro c hc
    fin_cases hc <;> decide
  · decide
  · intro c hc
    fin_cases hc <;> decide
  · intro c hc
    fin_cases hc <;> exact fun _ lid hlid => Option.noConfusion hlid

/-- Counterexample for C2 as stated: in a store with two primaries sharing
`createdAt = 5` (ids 1 and 2), a request matching row 2 by email and row 1
by phone makes row 2 the survivor (first in match-encounter order), not the
id-ascending minimum row 1 that the claimed tie-break would pick. -/
theorem c2_counterexample :
    (identifyContact cexStore (some "e") (some "p")).map
      (fun r => r.response.primaryContatctId) = .ok 2 ∧
    cexStore.contacts.map (fun c => (c.id, c.createdAt)) = [(1, 5), (2, 5)] ∧
    (2 : Nat) ≠ 1 := by
  refine ⟨rfl, rfl, by decide⟩

/-- Claim C2 (amended): with at least one matching record, the surviving
primary is minimal in `createdAt` among the distinct root primaries, and
when several roots share the minimal `createdAt` the survivor is the one
first encountered in match order (email matches in store order, then phone
matches) — the stable sort keeps encounter order on ties; there is no
id-based tie-break. -/
theorem c2_survivor_first_min (s : Store) (e p : Option String) (hWF : WF s)
    (hne : matchesFor s e p ≠ []) :
    ∃ roots P T res,
      resolveRoots s (matchesFor s e p) = .ok roots ∧
      sortByCreated (dedupeBy (fun c => c.id) roots) = P :: T ∧
      identifyContact s e p = .ok res ∧
      res.response.primaryContatctId = P.id ∧
      firstMinByCreated (dedupeBy (fun c => c.id) roots) = some P ∧
      (∀ r ∈ roots, P.createdAt ≤ r.createdAt) ∧
      (∃ l₁ l₂, dedupeBy (fun c => c.id) roots = l₁ ++ P :: l₂ ∧
        ∀ a ∈ l₁, P.createdAt < a.createdAt) := by
  obtain ⟨roots, P, T, hroots, hrel, hsort, hP, hT, hPid, hTnodup, hprim, hsorted⟩ :=
    sorted_roots_facts hWF hne
  have hres := identifyContact_matched_eq hroots hsort hne
  have hfm : firstMinByCreated (dedupeBy (fun c => c.id) roots) = some P := by
    rw [← head?_sortByCreated, hsort]
    rfl
  obtain ⟨⟨l₁, l₂, hsplit, hstrict⟩, hmin⟩ := firstMinByCreated_spec _ P hfm
  refine ⟨roots, P, T, _, hroots, hsort, hres, rfl, hfm, ?_, ⟨l₁, l₂, hsplit, hstrict⟩⟩
  intro r hr
  obtain ⟨a, ha, haid⟩ := exists_mem_dedupeBy_of_mem (fun c => c.id) hr
  have haS : a ∈ s.contacts := by
    obtain ⟨m, _, hR⟩ := forall₂_mem_right hrel a (mem_of_mem_dedupeBy ha)
    exact hR.1
  have hrS : r ∈ s.contacts := by
    obtain ⟨m, _, hR⟩ := forall₂_mem_right hrel r hr
    exact hR.1
  have har : a = r := eq_of_mem_of_same_id hWF.pairwise_ids haS hrS haid
  rw [← har]
  exact hmin a ha

/-- Witness for the amended C2 at the two-primary tie store. -/
theorem c2_witness :
    ∃ roots P T res,
      resolveRoots cexStore (matchesFor cexStore (some "e") (some "p")) = .ok roots ∧
      sortByCreated (dedupeBy (fun c => c.id) roots) = P :: T ∧
      identifyContact cexStore (some "e") (some "p") = .ok res ∧
      res.response.primaryContatctId = P.id ∧
      firstMinByCreated (dedupeBy (fun c => c.id) roots) = some P ∧
      (∀ r ∈ roots, P.createdAt ≤ r.createdAt) ∧
      (∃ l₁ l₂, dedupeBy (fun c => c.id) roots = l₁ ++ P :: l₂ ∧
        ∀ a ∈ l₁, P.createdAt < a.createdAt) :=
  c2_survivor_first_min cexStore (some "e") (some "p") WF_cexStore (by decide)

/-! ### No-match behaviour -/

/-- Claim C4: with normalized inputs of which at least one is non-null, if
no live row matches the given email or the given phone then the call
creates exactly one new row holding the given email and phone with
`linkPrecedence = primary` (and no `linkedId`), and returns a view with
that row's id, empty `secondaryContactIds`, and emails/phoneNumbers
containing exactly the non-null input fields. -/
theorem c4_no_match_creates_primary (s : Store) (e p : Option String) (hWF : WF s)
    (hne : NormIn e) (hnp : NormIn p) (_hone : e ≠ none ∨ p ≠ none)
    (hnomatch : ∀ c ∈ s.contacts, c.deletedAt = none →
      (e ≠ none → c.email ≠ e) ∧ (p ≠ none → c.phoneNumber ≠ p)) :
    identifyContact s e p =
      .ok ⟨primaryInserted s e p, ⟨s.nextId, e.toList, p.toList, []⟩, 1⟩ := by
  have hm : matchesFor s e p = [] := by
    apply matchesFor_eq_nil
    intro c hc hd
    constructor
    · rintro ⟨ht, hce⟩
      have hen : e ≠ none := by
        intro hn
        rw [hn] at ht
        exact Bool.false_ne_true ht
      exact (hnomatch c hc hd).1 hen hce
    · rintro ⟨ht, hcp⟩
      have hpn : p ≠ none := by
        intro hn
        rw [hn] at ht
        exact Bool.false_ne_true ht
      exact (hnomatch c hc hd).2 hpn hcp
  rw [identifyContact_nomatch_eq hm, buildResponse_fresh hWF e p hne hnp]

/-- Witness for C4 at the empty store. -/
theorem c4_witness :
    identifyContact ⟨[], 1, 0⟩ (some "a") (some "1") =
      .ok ⟨primaryInserted ⟨[], 1, 0⟩ (some "a") (some "1"), ⟨1, ["a"], ["1"], []⟩, 1⟩ :=
  c4_no_match_creates_primary ⟨[], 1, 0⟩ (some "a") (some "1") WF_nil
    (fun x hx => by injection hx with h; subst h; decide)
    (fun x hx => by injection hx with h; subst h; decide)
    (Or.inl (by decide))
    (fun c hc => (List.not_mem_nil c hc).elim)

/-! ### Membership of matched rows in the survivor's group -/

theorem forall₂_mem_left {α β : Type} {R : α → β → Prop} :
    ∀ {l₁ : List α} {l₂ : List β}, List.Forall₂ R l₁ l₂ → ∀ a ∈ l₁, ∃ b ∈ l₂, R a b := by
  intro l₁ l₂ h
  induction h with
  | nil => intro a ha; cases ha
  | cons hr _ ih =>
    intro a ha
    rcases List.mem_cons.mp ha with rfl | ha
    · exact ⟨_, List.mem_cons_self _ _, hr⟩
    · obtain ⟨b, hb, hab⟩ := ih a ha
      exact ⟨b, List.mem_cons_of_mem _ hb, hab⟩

theorem root_in_PT {s : Store} (hWF : WF s) {ms roots : List Contact} {P : Contact}
    {T : List Contact} (hrel : List.Forall₂ (RootRel s) ms roots)
    (hsort : sortByCreated (dedupeBy (fun c => c.id) roots) = P :: T)
    {r : Contact} (hr : r ∈ roots) : r ∈ P :: T := by
  obtain ⟨a, ha, haid⟩ := exists_mem_dedupeBy_of_mem (fun c => c.id) hr
  have haS : a ∈ s.contacts := by
    obtain ⟨m, _, hR⟩ := forall₂_mem_right hrel a (mem_of_mem_dedupeBy ha)
    exact hR.1
  have hrS : r ∈ s.contacts := by
    obtain ⟨m, _, hR⟩ := forall₂_mem_right hrel r hr
    exact hR.1
  have har : a = r := eq_of_mem_of_same_id hWF.pairwise_ids haS hrS haid
  rw [← hsort, mem_sortByCreated, ← har]
  exact ha

theorem matched_in_group {s : Store} {e p : Option String} {roots : List Contact}
    {P : Contact} {T : List Contact} (hWF : WF s)
    (hrel : List.Forall₂ (RootRel s) (matchesFor s e p) roots)
    (hsort : sortByCreated (dedupeBy (fun c => c.id) roots) = P :: T)
    (hPid : P.id ∉ T.map (fun t => t.id))
    (hprim : ∀ c ∈ s.contacts, c.id ∈ T.map (fun t => t.id) → c.linkedId = none)
    {m : Contact} (hm : m ∈ matchesFor s e p) :
    (mergeTransform P.id (T.map (fun t => t.id)) m).id = P.id ∨
    (mergeTransform P.id (T.map (fun t => t.id)) m).linkedId = some P.id := by
  obtain ⟨r, hrmem, hR⟩ := forall₂_mem_left hrel m hm
  obtain ⟨hmS, hmlive, _⟩ := mem_matchesFor hm
  have hrPT : r ∈ P :: T := root_in_PT hWF hrel hsort hrmem
  rcases List.mem_cons.mp hrPT with hrP | hrT
  · have hRP : RootRel s m P := hrP ▸ hR
    rcases hRP.2.2.2 with hPm | hml
    · left
      rw [← hPm]
      rw [mergeTransform_fixed hPid ((hWF.primary_iff _ hRP.1).mp hRP.2.1)]
    · right
      have h1 : m.id ∉ T.map (fun t => t.id) := by
        intro hmem
        rw [hprim m hmS hmem] at hml
        exact Option.noConfusion hml
      have h2 : ¬((∃ t ∈ T.map (fun t => t.id), m.linkedId = some t) ∧ m.deletedAt = none) := by
        rintro ⟨⟨t, ht, hmt⟩, _⟩
        rw [hml] at hmt
        injection hmt with hh
        exact hPid (hh ▸ ht)
      rcases mergeTransform_cases P.id (T.map (fun t => t.id)) m with
        ⟨hc, _⟩ | ⟨_, hexx, hlivee, _⟩ | ⟨_, _, he⟩
      · exact absurd hc h1
      · exact absurd ⟨hexx, hlivee⟩ h2
      · rw [he]
        exact hml
  · right
    rcases hR.2.2.2 with hrm | hml
    · have h1 : m.id ∈ T.map (fun t => t.id) :=
        List.mem_map.mpr ⟨r, hrT, by rw [hrm]⟩
      rcases mergeTransform_cases P.id (T.map (fun t => t.id)) m with
        ⟨_, he⟩ | ⟨hno, _, _, _⟩ | ⟨hno, _, _⟩
      · rw [he]
      · exact absurd h1 hno
      · exact absurd h1 hno
    · have h1 : m.id ∉ T.map (fun t => t.id) := by
        intro hmem
        rw [hprim m hmS hmem] at hml
        exact Option.noConfusion hml
      have h2 : (∃ t ∈ T.map (fun t => t.id), m.linkedId = some t) ∧ m.deletedAt = none :=
        ⟨⟨r.id, List.mem_map.mpr ⟨r, hrT, rfl⟩, hml⟩, hmlive⟩
      rcases mergeTransform_cases P.id (T.map (fun t => t.id)) m with
        ⟨hc, _⟩ | ⟨_, _, _, he⟩ | ⟨_, hno, _⟩
      · exact absurd hc h1
      · rw [he]
      · exact absurd h2 hno

theorem mem_finalStore_of_merged {s : Store} {e p : Option String} {ms : List Contact}
    {P : Contact} {T : List Contact} {c : Contact}
    (hc : c ∈ (mergedStore s P T).contacts) :
    c ∈ (finalStore s e p ms P T).contacts := by
  unfold finalStore insertSecondary
  split
  · exact List.mem_append.mpr (Or.inl hc)
  · exact hc

theorem mem_secondaryIds {s : Store} {P c : Contact}
    (hc : c ∈ s.contacts) (hlid : c.linkedId = some P.id) (hlive : c.deletedAt = none) :
    c.id ∈ (buildResponse s P).secondaryContactIds := by
  unfold buildResponse
  refine List.mem_map.mpr ⟨c, ?_, rfl⟩
  rw [mem_sortByCreated]
  exact List.mem_filter.mpr ⟨hc, by simp [hlid, hlive]⟩

theorem mergedStore_length {s : Store} {P : Contact} {T : List Contact}
    (hPid : P.id ∉ T.map (fun t => t.id))
    (hTnodup : (T.map (fun t => t.id)).Nodup)
    (hprim : ∀ c ∈ s.contacts, c.id ∈ T.map (fun t => t.id) → c.linkedId = none) :
    (mergedStore s P T).contacts.length = s.contacts.length := by
  rw [mergedStore_eq hPid hTnodup hprim]
  exact List.length_map _ _

/-! ### The merge claim -/

theorem WF_mergeStoreW : WF mergeStoreW := by
  refine ⟨by decide, ?_, ?_, ?_, ?_⟩
  · intro c hc
    fin_cases hc <;> decide
  · decide
  · intro c hc
    fin_cases hc <;> decide
  · intro c hc
    fin_cases hc <;> exact fun _ lid hlid => Option.noConfusion hlid

/-- Claim C1: when the matched records resolve to more than one distinct
root primary, every merge target (the non-surviving roots, processed in
ascending `createdAt` order — the sorted list is `Pairwise (≤)` on
`createdAt`) is demoted in the final store to `secondary` with `linkedId`
set to the survivor's id; every live row previously linked to a target is
re-linked to the survivor (the model issues the bulk re-link before the
demotion inside each `demoteTarget` pass, as the source does); the
response's `primaryContatctId` is the survivor's id and its
`secondaryContactIds` include every demoted target. -/
theorem c1_oldest_wins_merge (s : Store) (e p : Option String) (hWF : WF s)
    {roots : List Contact} {P : Contact} {T : List Contact} {res : TxResult}
    (hroots : resolveRoots s (matchesFor s e p) = .ok roots)
    (hsort : sortByCreated (dedupeBy (fun c => c.id) roots) = P :: T)
    (hT : T ≠ []) (hres : identifyContact s e p = .ok res) :
    (∀ t ∈ T, ∃ c ∈ res.store.contacts,
      c.id = t.id ∧ c.linkPrecedence = .secondary ∧ c.linkedId = some P.id) ∧
    (∀ t ∈ T, t.id ∈ res.response.secondaryContactIds) ∧
    (∀ t ∈ T, ∀ c ∈ s.contacts, c.deletedAt = none → c.linkedId = some t.id →
      ∃ c' ∈ res.store.contacts, c'.id = c.id ∧ c'.linkedId = some P.id) ∧
    res.response.primaryContatctId = P.id ∧
    (P :: T).Pairwise (fun a b => a.createdAt ≤ b.createdAt) := by
  have hnem : matchesFor s e p ≠ [] := by
    intro hnil
    rw [hnil] at hroots
    simp only [resolveRoots] at hroots
    injection hroots with h
    rw [← h] at hsort
    simp [dedupeBy, dedupeByAux, sortByCreated] at hsort
  obtain ⟨roots', P', T', hroots', hrel, hsort', hP, hTlp, hPid, hTnodup, hprim, hsorted⟩ :=
    sorted_roots_facts hWF hnem
  rw [hroots] at hroots'
  injection hroots' with hre
  subst hre
  rw [hsort] at hsort'
  injection hsort' with h1 h2
  subst h1
  subst h2
  have hdriver := identifyContact_matched_eq hroots hsort hnem
  rw [hdriver] at hres
  injection hres with hresval
  subst hresval
  have hms := mergedStore_eq hPid hTnodup hprim
  have himgmem : ∀ c ∈ s.contacts,
      mergeTransform P.id (T.map (fun t => t.id)) c ∈ (mergedStore s P T).contacts := by
    intro c hc
    rw [hms]
    exact List.mem_map_of_mem _ hc
  have hdemoted : ∀ t ∈ T,
      mergeTransform P.id (T.map (fun t => t.id)) t =
        { t with linkPrecedence := .secondary, linkedId := some P.id } := by
    intro t ht
    have h1 : t.id ∈ T.map (fun t => t.id) := List.mem_map.mpr ⟨t, ht, rfl⟩
    unfold mergeTransform
    rw [if_pos h1]
  refine ⟨?_, ?_, ?_, rfl, hsorted⟩
  · intro t ht
    refine ⟨mergeTransform P.id (T.map (fun t => t.id)) t,
      mem_finalStore_of_merged (himgmem t (hTlp t ht).1), mergeTransform_id _ _ _, ?_, ?_⟩
    · rw [hdemoted t ht]
    · rw [hdemoted t ht]
  · intro t ht
    have himg := hdemoted t ht
    have hlive : (mergeTransform P.id (T.map (fun t => t.id)) t).deletedAt = none := by
      rw [mergeTransform_deletedAt]
      exact (hTlp t ht).2.2
    have hlid : (mergeTransform P.id (T.map (fun t => t.id)) t).linkedId = some P.id := by
      rw [himg]
    have hmem : mergeTransform P.id (T.map (fun t => t.id)) t ∈
        (finalStore s e p (matchesFor s e p) P T).contacts :=
      mem_finalStore_of_merged (himgmem t (hTlp t ht).1)
    have h := mem_secondaryIds hmem hlid hlive
    rwa [mergeTransform_id] at h
  · intro t ht c hc hclive hclid
    have h1 : c.id ∉ T.map (fun t => t.id) := by
      intro hmem
      rw [hprim c hc hmem] at hclid
      exact Option.noConfusion hclid
    have h2 : (∃ x ∈ T.map (fun t => t.id), c.linkedId = some x) ∧ c.deletedAt = none :=
      ⟨⟨t.id, List.mem_map.mpr ⟨t, ht, rfl⟩, hclid⟩, hclive⟩
    have himg : mergeTransform P.id (T.map (fun t => t.id)) c =
        { c with linkedId := some P.id } := by
      unfold mergeTransform
      rw [if_neg h1, if_pos h2]
    refine ⟨mergeTransform P.id (T.map (fun t => t.id)) c,
      mem_finalStore_of_merged (himgmem c hc), mergeTransform_id _ _ _, ?_⟩
    rw [himg]

/-- Witness for C1 at the two-primary merge scenario. -/
theorem c1_witness :
    ∃ res, identifyContact mergeStoreW (some "g") (some "7") = .ok res ∧
      ((∀ t ∈ ([contactYW] : List Contact), ∃ c ∈ res.store.contacts,
        c.id = t.id ∧ c.linkPrecedence = .secondary ∧ c.linkedId = some contactXW.id) ∧
      (∀ t ∈ ([contactYW] : List Contact), t.id ∈ res.response.secondaryContactIds) ∧
      (∀ t ∈ ([contactYW] : List Contact), ∀ c ∈ mergeStoreW.contacts, c.deletedAt = none →
        c.linkedId = some t.id →
        ∃ c' ∈ res.store.contacts, c'.id = c.id ∧ c'.linkedId = some contactXW.id) ∧
      res.response.primaryContatctId = contactXW.id ∧
      (contactXW :: [contactYW]).Pairwise (fun a b => a.createdAt ≤ b.createdAt)) := by
  refine ⟨_, rfl, ?_⟩
  exact c1_oldest_wins_merge mergeStoreW (some "g") (some "7") WF_mergeStoreW rfl rfl
    (by decide) rfl

/-! ### The new-information claim -/

theorem input_email_group_iff {s : Store} {e p : Option String} {roots : List Contact}
    {P : Contact} {T : List Contact} (hWF : WF s)
    (hrel : List.Forall₂ (RootRel s) (matchesFor s e p) roots)
    (hsort : sortByCreated (dedupeBy (fun c => c.id) roots) = P :: T)
    (hPid : P.id ∉ T.map (fun t => t.id))
    (hTnodup : (T.map (fun t => t.id)).Nodup)
    (hprim : ∀ c ∈ s.contacts, c.id ∈ T.map (fun t => t.id) → c.linkedId = none)
    {x : String} (hex : e = some x) (hx : x ≠ "") :
    x ∈ groupEmails (mergedStore s P T) P.id ↔
      x ∈ (matchesFor s e p).filterMap (fun c => c.email) := by
  rw [mergedStore_eq hPid hTnodup hprim]
  unfold groupEmails
  constructor
  · intro hg
    obtain ⟨c', hc'f, hc'e⟩ := List.mem_filterMap.mp hg
    obtain ⟨hc'm, hcond⟩ := List.mem_filter.mp hc'f
    obtain ⟨c, hc, hce⟩ := List.mem_map.mp hc'm
    have hcemail : c.email = some x := by
      rw [← mergeTransform_email P.id (T.map (fun t => t.id)) c, hce]
      exact hc'e
    have hclive : c.deletedAt = none := by
      simp only [decide_eq_true_eq] at hcond
      rw [← mergeTransform_deletedAt P.id (T.map (fun t => t.id)) c, hce]
      exact hcond.1
    have htr : truthyStr e = true := by
      rw [hex]
      simp [truthyStr, hx]
    have hmatch : c ∈ matchesFor s e p :=
      mem_matchesFor_email hWF.pairwise_ids hc hclive htr (by rw [hcemail, hex])
    exact List.mem_filterMap.mpr ⟨c, hmatch, hcemail⟩
  · intro hm
    obtain ⟨m, hmm, hme⟩ := List.mem_filterMap.mp hm
    have hgrp := matched_in_group hWF hrel hsort hPid hprim hmm
    obtain ⟨hmS, hmlive, _⟩ := mem_matchesFor hmm
    refine List.mem_filterMap.mpr ⟨mergeTransform P.id (T.map (fun t => t.id)) m, ?_, ?_⟩
    · refine List.mem_filter.mpr ⟨List.mem_map_of_mem _ hmS, ?_⟩
      simp only [decide_eq_true_eq]
      refine ⟨?_, ?_⟩
      · rw [mergeTransform_deletedAt]
        exact hmlive
      · exact hgrp
    · rw [mergeTransform_email]
      exact hme

theorem input_phone_group_iff {s : Store} {e p : Option String} {roots : List Contact}
    {P : Contact} {T : List Contact} (hWF : WF s)
    (hrel : List.Forall₂ (RootRel s) (matchesFor s e p) roots)
    (hsort : sortByCreated (dedupeBy (fun c => c.id) roots) = P :: T)
    (hPid : P.id ∉ T.map (fun t => t.id))
    (hTnodup : (T.map (fun t => t.id)).Nodup)
    (hprim : ∀ c ∈ s.contacts, c.id ∈ T.map (fun t => t.id) → c.linkedId = none)
    {x : String} (hpx : p = some x) (hx : x ≠ "") :
    x ∈ groupPhones (mergedStore s P T) P.id ↔
      x ∈ (matchesFor s e p).filterMap (fun c => c.phoneNumber) := by
  rw [mergedStore_eq hPid hTnodup hprim]
  unfold groupPhones
  constructor
  · intro hg
    obtain ⟨c', hc'f, hc'e⟩ := List.mem_filterMap.mp hg
    obtain ⟨hc'm, hcond⟩ := List.mem_filter.mp hc'f
    obtain ⟨c, hc, hce⟩ := List.mem_map.mp hc'm
    have hcphone : c.phoneNumber = some x := by
      rw [← mergeTransform_phone P.id (T.map (fun t => t.id)) c, hce]
      exact hc'e
    have hclive : c.deletedAt = none := by
      simp only [decide_eq_true_eq] at hcond
      rw [← mergeTransform_deletedAt P.id (T.map (fun t => t.id)) c, hce]
      exact hcond.1
    have htr : truthyStr p = true := by
      rw [hpx]
      simp [truthyStr, hx]
    have hmatch : c ∈ matchesFor s e p :=
      mem_matchesFor_phone hWF.pairwise_ids hc hclive htr (by rw [hcphone, hpx])
    exact List.mem_filterMap.mpr ⟨c, hmatch, hcphone⟩
  · intro hm
    obtain ⟨m, hmm, hme⟩ := List.mem_filterMap.mp hm
    have hgrp := matched_in_group hWF hrel hsort hPid hprim hmm
    obtain ⟨hmS, hmlive, _⟩ := mem_matchesFor hmm
    refine List.mem_filterMap.mpr ⟨mergeTransform P.id (T.map (fun t => t.id)) m, ?_, ?_⟩
    · refine List.mem_filter.mpr ⟨List.mem_map_of_mem _ hmS, ?_⟩
      simp only [decide_eq_true_eq]
      refine ⟨?_, ?_⟩
      · rw [mergeTransform_deletedAt]
        exact hmlive
      · exact hgrp
    · rw [mergeTransform_phone]
      exact hme

theorem contains_iff_mem {l : List String} {x : String} : l.contains x = true ↔ x ∈ l := by
  rw [show l.contains x = List.elem x l from rfl, List.elem_eq_mem]
  simp

theorem hasNewField_iff {o : Option String} {pool : List String} (hno : NormIn o) :
    hasNewField o (pool.filter (fun x => !(x == ""))) = true ↔
      ∃ x, o = some x ∧ x ∉ pool := by
  cases o with
  | none =>
    simp [hasNewField]
  | some x =>
    have hx : x ≠ "" := hno x rfl
    simp only [hasNewField, Bool.and_eq_true, Bool.not_eq_true', beq_eq_false_iff_ne, ne_eq,
      Option.some.injEq]
    constructor
    · rintro ⟨-, hnc⟩
      refine ⟨x, rfl, ?_⟩
      intro hmem
      have hc : (pool.filter (fun y => !(y == ""))).contains x = true :=
        contains_iff_mem.mpr (List.mem_filter.mpr ⟨hmem, by simp [hx]⟩)
      rw [hnc] at hc
      exact Bool.false_ne_true hc
    · rintro ⟨y, hy, hnot⟩
      subst hy
      refine ⟨hx, ?_⟩
      rw [Bool.eq_false_iff]
      intro hc
      exact hnot (List.mem_of_mem_filter (contains_iff_mem.mp hc))

theorem WF_soloStoreW : WF soloStoreW := by
  refine ⟨by decide, ?_, ?_, ?_, ?_⟩
  · intro c hc
    fin_cases hc <;> decide
  · decide
  · intro c hc
    fin_cases hc <;> decide
  · intro c hc
    fin_cases hc <;> exact fun _ lid hlid => Option.noConfusion hlid

/-- Claim C3: in a matched run with normalized inputs, a new row is created
if and only if the input supplies an email absent from the consolidated
identity of the survivor after the merge (the survivor and all rows linked
to it, possibly just re-linked), or a phone absent from it; a created row
carries exactly the given email and phone with `linkPrecedence = secondary`
and `linkedId` equal to the survivor's id (the `insertSecondary` shape);
when no field is new, the final store is exactly the merged store, and the
merge itself never adds rows. -/
theorem c3_new_information (s : Store) (e p : Option String) (hWF : WF s)
    (hne : NormIn e) (hnp : NormIn p)
    {roots : List Contact} {P : Contact} {T : List Contact}
    (hroots : resolveRoots s (matchesFor s e p) = .ok roots)
    (hsort : sortByCreated (dedupeBy (fun c => c.id) roots) = P :: T)
    (hnem : matchesFor s e p ≠ []) :
    identifyContact s e p =
      .ok ⟨finalStore s e p (matchesFor s e p) P T,
        buildResponse (finalStore s e p (matchesFor s e p) P T) P,
        2 * T.length + (if newInfo (matchesFor s e p) e p then 1 else 0)⟩ ∧
    (newInfo (matchesFor s e p) e p = true ↔
      (∃ x, e = some x ∧ x ∉ groupEmails (mergedStore s P T) P.id) ∨
      (∃ x, p = some x ∧ x ∉ groupPhones (mergedStore s P T) P.id)) ∧
    (newInfo (matchesFor s e p) e p = true →
      finalStore s e p (matchesFor s e p) P T =
        insertSecondary (mergedStore s P T) e p P.id) ∧
    (newInfo (matchesFor s e p) e p = false →
      finalStore s e p (matchesFor s e p) P T = mergedStore s P T) ∧
    (mergedStore s P T).contacts.length = s.contacts.length := by
  obtain ⟨roots', P', T', hroots', hrel, hsort', hP, hTlp, hPid, hTnodup, hprim, hsorted⟩ :=
    sorted_roots_facts hWF hnem
  rw [hroots] at hroots'
  injection hroots' with hre
  subst hre
  rw [hsort] at hsort'
  injection hsort' with h1 h2
  subst h1
  subst h2
  refine ⟨identifyContact_matched_eq hroots hsort hnem, ?_, ?_, ?_,
    mergedStore_length hPid hTnodup hprim⟩
  · unfold newInfo
    rw [Bool.or_eq_true]
    rw [hasNewField_iff hne, hasNewField_iff hnp]
    constructor
    · rintro (⟨x, hex, hnot⟩ | ⟨x, hpx, hnot⟩)
      · left
        refine ⟨x, hex, ?_⟩
        intro hg
        exact hnot
          ((input_email_group_iff hWF hrel hsort hPid hTnodup hprim hex (hne x hex)).mp hg)
      · right
        refine ⟨x, hpx, ?_⟩
        intro hg
        exact hnot
          ((input_phone_group_iff hWF hrel hsort hPid hTnodup hprim hpx (hnp x hpx)).mp hg)
    · rintro (⟨x, hex, hnot⟩ | ⟨x, hpx, hnot⟩)
      · left
        refine ⟨x, hex, ?_⟩
        intro hmem
        exact hnot
          ((input_email_group_iff hWF hrel hsort hPid hTnodup hprim hex (hne x hex)).mpr hmem)
      · right
        refine ⟨x, hpx, ?_⟩
        intro hmem
        exact hnot
          ((input_phone_group_iff hWF hrel hsort hPid hTnodup hprim hpx (hnp x hpx)).mpr hmem)
  · intro hni
    unfold finalStore
    rw [if_pos hni]
  · intro hni
    unfold finalStore
    rw [if_neg (by rw [hni]; exact fun h => Bool.false_ne_true h)]

/-- Witness for C3: one primary (a, 1); the request (b, 1) supplies a new
email, so a secondary is inserted under it. -/
theorem c3_witness :
    identifyContact soloStoreW (some "b") (some "1") =
      .ok ⟨finalStore soloStoreW (some "b") (some "1")
          (matchesFor soloStoreW (some "b") (some "1")) soloContactW [],
        buildResponse (finalStore soloStoreW (some "b") (some "1")
          (matchesFor soloStoreW (some "b") (some "1")) soloContactW []) soloContactW,
        2 * List.length ([] : List Contact) +
          (if newInfo (matchesFor soloStoreW (some "b") (some "1")) (some "b") (some "1")
            then 1 else 0)⟩ ∧
    (newInfo (matchesFor soloStoreW (some "b") (some "1")) (some "b") (some "1") = true ↔
      (∃ x, (some "b" : Option String) = some x ∧
        x ∉ groupEmails (mergedStore soloStoreW soloContactW []) soloContactW.id) ∨
      (∃ x, (some "1" : Option String) = some x ∧
        x ∉ groupPhones (mergedStore soloStoreW soloContactW []) soloContactW.id)) ∧
    (newInfo (matchesFor soloStoreW (some "b") (some "1")) (some "b") (some "1") = true →
      finalStore soloStoreW (some "b") (some "1")
          (matchesFor soloStoreW (some "b") (some "1")) soloContactW [] =
        insertSecondary (mergedStore soloStoreW soloContactW []) (some "b") (some "1")
          soloContactW.id) ∧
    (newInfo (matchesFor soloStoreW (some "b") (some "1")) (some "b") (some "1") = false →
      finalStore soloStoreW (some "b") (some "1")
          (matchesFor soloStoreW (some "b") (some "1")) soloContactW [] =
        mergedStore soloStoreW soloContactW []) ∧
    (mergedStore soloStoreW soloContactW []).contacts.length =
      soloStoreW.contacts.length :=
  c3_new_information soloStoreW (some "b") (some "1") WF_soloStoreW
    (fun x hx => by injection hx with h; subst h; decide)
    (fun x hx => by injection hx with h; subst h; decide)
    rfl rfl (by decide)

/-! ### View shape -/

theorem buildResponse_spec {s : Store} (hTO : TimeOrdered s) (P : Contact) :
    buildResponse s P =
      ⟨P.id,
        dedupeBy (fun x => x)
          (((P :: s.contacts.filter
              (fun c => decide (c.linkedId = some P.id ∧ c.deletedAt = none))).filterMap
            (fun c => c.email)).filter (fun x => !(x == ""))),
        dedupeBy (fun x => x)
          (((P :: s.contacts.filter
              (fun c => decide (c.linkedId = some P.id ∧ c.deletedAt = none))).filterMap
            (fun c => c.phoneNumber)).filter (fun x => !(x == ""))),
        (s.contacts.filter
          (fun c => decide (c.linkedId = some P.id ∧ c.deletedAt = none))).map
          (fun c => c.id)⟩ := by
  have hsorted : (s.contacts.filter
      (fun c => decide (c.linkedId = some P.id ∧ c.deletedAt = none))).Pairwise
      (fun a b => a.createdAt ≤ b.createdAt) := by
    have h1 : s.contacts.Pairwise (fun a b => a.createdAt ≤ b.createdAt) :=
      hTO.1.imp (fun h => h.2)
    exact h1.sublist (List.filter_sublist _)
  unfold buildResponse
  rw [sortByCreated_of_sorted hsorted]

theorem view_conclusions {st : Store} (hTO : TimeOrdered st) (P : Contact) :
    (buildResponse st P).primaryContatctId = P.id ∧
    ((buildResponse st P).secondaryContactIds =
      (st.contacts.filter (fun c => decide (c.linkedId = some P.id ∧ c.deletedAt = none))).map
        (fun c => c.id)) ∧
    (buildResponse st P).secondaryContactIds.Pairwise (fun a b => a < b) ∧
    ((buildResponse st P).emails =
      dedupeBy (fun x => x)
        (((P :: st.contacts.filter
            (fun c => decide (c.linkedId = some P.id ∧ c.deletedAt = none))).filterMap
          (fun c => c.email)).filter (fun x => !(x == "")))) ∧
    (∀ x ∈ (buildResponse st P).emails, x ≠ "") ∧
    (buildResponse st P).emails.Nodup ∧
    ((buildResponse st P).phoneNumbers =
      dedupeBy (fun x => x)
        (((P :: st.contacts.filter
            (fun c => decide (c.linkedId = some P.id ∧ c.deletedAt = none))).filterMap
          (fun c => c.phoneNumber)).filter (fun x => !(x == "")))) ∧
    (∀ x ∈ (buildResponse st P).phoneNumbers, x ≠ "") ∧
    (buildResponse st P).phoneNumbers.Nodup := by
  rw [buildResponse_spec hTO P]
  have hids : ((st.contacts.filter
      (fun c => decide (c.linkedId = some P.id ∧ c.deletedAt = none))).map
      (fun c => c.id)).Pairwise (fun a b => a < b) := by
    refine List.pairwise_map.mpr ?_
    have h1 : st.contacts.Pairwise (fun a b => a.id < b.id) := hTO.1.imp (fun h => h.1)
    exact h1.sublist (List.filter_sublist _)
  have hnotempty : ∀ (f : Contact → Option String) (l : List Contact),
      ∀ x ∈ dedupeBy (fun x => x) ((l.filterMap f).filter (fun x => !(x == ""))), x ≠ "" := by
    intro f l x hx
    have := mem_of_mem_dedupeBy hx
    have := List.mem_filter.mp this
    simpa using this.2
  have hnodup : ∀ (l : List String), (dedupeBy (fun x => x) l).Nodup := by
    intro l
    have h := dedupeBy_key_nodup (fun x => x) l
    exact h
  exact ⟨rfl, rfl, hids, rfl, hnotempty _ _, hnodup _, rfl, hnotempty _ _, hnodup _⟩

theorem TimeOrdered_finalStore {s : Store} (e p : Option String) (ms : List Contact)
    {P : Contact} {T : List Contact} (hWF : WF s) (hTO : TimeOrdered s)
    (hP : IsLivePrimary s P)
    (hPid : P.id ∉ T.map (fun t => t.id))
    (hTnodup : (T.map (fun t => t.id)).Nodup)
    (hprim : ∀ c ∈ s.contacts, c.id ∈ T.map (fun t => t.id) → c.linkedId = none) :
    TimeOrdered (finalStore s e p ms P T) := by
  have hms := mergedStore_eq hPid hTnodup hprim
  have hTO1 : TimeOrdered (mergedStore s P T) := by
    rw [hms]
    exact TimeOrdered_merged hTO P.id _
  have hWF1 : WF (mergedStore s P T) := by
    rw [hms]
    exact WF_merged hWF hP hPid
  unfold finalStore
  split
  · unfold insertSecondary
    exact TimeOrdered_append hTO1 hWF1 rfl rfl
  · exact hTO1

/-- Claim C6: every view returned by a successful run is built for a
resolved primary row `P` present in the final store: `primaryContatctId` is
`P.id`; `secondaryContactIds` lists exactly the live rows linked to `P` in
final-store order, which is ascending creation order (strictly increasing
ids, since serial ids follow creation order); `emails` is the
first-occurrence deduplication of the non-null, non-empty emails of `P`
followed by those secondaries in ascending creation order, and likewise
`phoneNumbers`; no null can occur (the lists hold plain strings) and no
empty entry ever appears. -/
theorem c6_view_shape (s : Store) (e p : Option String) (hWF : WF s) (hTO : TimeOrdered s)
    {res : TxResult} (hres : identifyContact s e p = .ok res) :
    ∃ P, P ∈ res.store.contacts ∧
      res.response.primaryContatctId = P.id ∧
      (res.response.secondaryContactIds =
        (res.store.contacts.filter
          (fun c => decide (c.linkedId = some P.id ∧ c.deletedAt = none))).map
          (fun c => c.id)) ∧
      res.response.secondaryContactIds.Pairwise (fun a b => a < b) ∧
      (res.response.emails =
        dedupeBy (fun x => x)
          (((P :: res.store.contacts.filter
              (fun c => decide (c.linkedId = some P.id ∧ c.deletedAt = none))).filterMap
            (fun c => c.email)).filter (fun x => !(x == "")))) ∧
      (∀ x ∈ res.response.emails, x ≠ "") ∧
      res.response.emails.Nodup ∧
      (res.response.phoneNumbers =
        dedupeBy (fun x => x)
          (((P :: res.store.contacts.filter
              (fun c => decide (c.linkedId = some P.id ∧ c.deletedAt = none))).filterMap
            (fun c => c.phoneNumber)).filter (fun x => !(x == "")))) ∧
      (∀ x ∈ res.response.phoneNumbers, x ≠ "") ∧
      res.response.phoneNumbers.Nodup := by
  by_cases hne : matchesFor s e p = []
  · rw [identifyContact_nomatch_eq hne] at hres
    injection hres with hv
    subst hv
    have hTO' : TimeOrdered (primaryInserted s e p) := by
      unfold primaryInserted
      exact TimeOrdered_append hTO hWF rfl rfl
    obtain ⟨h1, h2, h3, h4, h5, h6, h7, h8, h9⟩ := view_conclusions hTO' (newPrimary s e p)
    exact ⟨newPrimary s e p,
      List.mem_append.mpr (Or.inr (List.mem_singleton.mpr rfl)),
      h1, h2, h3, h4, h5, h6, h7, h8, h9⟩
  · obtain ⟨roots, P, T, hroots, hrel, hsort, hP, hTlp, hPid, hTnodup, hprim, hsorted⟩ :=
      sorted_roots_facts hWF hne
    rw [identifyContact_matched_eq hroots hsort hne] at hres
    injection hres with hv
    subst hv
    have hTO' : TimeOrdered (finalStore s e p (matchesFor s e p) P T) :=
      TimeOrdered_finalStore e p (matchesFor s e p) hWF hTO hP hPid hTnodup hprim
    have hPmem : P ∈ (finalStore s e p (matchesFor s e p) P T).contacts := by
      refine mem_finalStore_of_merged ?_
      rw [mergedStore_eq hPid hTnodup hprim]
      exact P_mem_merged hWF hP hPid
    obtain ⟨h1, h2, h3, h4, h5, h6, h7, h8, h9⟩ := view_conclusions hTO' P
    exact ⟨P, hPmem, h1, h2, h3, h4, h5, h6, h7, h8, h9⟩

/-- Witness for C6 at the merge scenario store. -/
theorem c6_witness :
    ∃ res, identifyContact mergeStoreW (some "g") (some "7") = .ok res ∧
      ∃ P, P ∈ res.store.contacts ∧
        res.response.primaryContatctId = P.id ∧
        (res.response.secondaryContactIds =
          (res.store.contacts.filter
            (fun c => decide (c.linkedId = some P.id ∧ c.deletedAt = none))).map
            (fun c => c.id)) ∧
        res.response.secondaryContactIds.Pairwise (fun a b => a < b) ∧
        (res.response.emails =
          dedupeBy (fun x => x)
            (((P :: res.store.contacts.filter
                (fun c => decide (c.linkedId = some P.id ∧ c.deletedAt = none))).filterMap
              (fun c => c.email)).filter (fun x => !(x == "")))) ∧
        (∀ x ∈ res.response.emails, x ≠ "") ∧
        res.response.emails.Nodup ∧
        (res.response.phoneNumbers =
          dedupeBy (fun x => x)
            (((P :: res.store.contacts.filter
                (fun c => decide (c.linkedId = some P.id ∧ c.deletedAt = none))).filterMap
              (fun c => c.phoneNumber)).filter (fun x => !(x == "")))) ∧
        (∀ x ∈ res.response.phoneNumbers, x ≠ "") ∧
        res.response.phoneNumbers.Nodup := by
  refine ⟨_, rfl, ?_⟩
  refine c6_view_shape mergeStoreW (some "g") (some "7") WF_mergeStoreW ?_ rfl
  refine ⟨?_, ?_⟩
  · decide
  · intro c hc
    fin_cases hc <;> decide

/-! ### Idempotence support -/

theorem resolveRoots_const {s : Store} {P : Contact} :
    ∀ {ms : List Contact}, (∀ m ∈ ms, findRootPrimary s (rootArg m) = .ok P) →
      resolveRoots s ms = .ok (ms.map (fun _ => P)) := by
  intro ms
  induction ms with
  | nil => intro _; rfl
  | cons m ms ih =>
    intro h
    have h1 := h m (List.mem_cons_self _ _)
    have h2 := ih (fun a ha => h a (List.mem_cons_of_mem _ ha))
    simp only [resolveRoots, h1, h2, List.map_cons]

theorem root_of_group_member {s : Store} (hWF : WF s) {P m : Contact}
    (hP : IsLivePrimary s P) (hm : m ∈ s.contacts)
    (hgm : m = P ∨ m.linkedId = some P.id) :
    findRootPrimary s (rootArg m) = .ok P := by
  rcases hgm with hmP | hml
  · subst hmP
    have harg : rootArg m = m.id := by
      unfold rootArg
      rw [if_neg]
      rintro ⟨h1, _⟩
      rw [hP.2.1] at h1
      cases h1
    rw [harg]
    have hfu : findUnique s m.id = some m := findUnique_of_mem hWF.pairwise_ids hP.1
    unfold findRootPrimary findRootPrimaryH
    rw [hfu, rootLoopH_ok_primary 10 hP.2.1]
  · have hPpos : 0 < P.id := (hWF.id_bounds P hP.1).1
    have hsec : m.linkPrecedence = .secondary := by
      cases hlp : m.linkPrecedence with
      | primary =>
        have hn := (hWF.primary_iff m hm).mp hlp
        rw [hn] at hml
        exact Option.noConfusion hml
      | secondary => rfl
    have hPid0 : P.id ≠ 0 := by omega
    have harg : rootArg m = P.id := by
      unfold rootArg
      rw [if_pos ⟨hsec, by rw [hml]; simp [truthyNat, hPid0]⟩, hml]
      rfl
    rw [harg]
    have hfu : findUnique s P.id = some P := findUnique_of_mem hWF.pairwise_ids hP.1
    unfold findRootPrimary findRootPrimaryH
    rw [hfu, rootLoopH_ok_primary 10 hP.2.1]

theorem hasNewField_false_mem {x : String} {pool : List String} (hx : x ≠ "")
    (h : hasNewField (some x) (pool.filter (fun y => !(y == ""))) = false) : x ∈ pool := by
  simp only [hasNewField, Bool.and_eq_false_iff] at h
  rcases h with h | h
  · rw [Bool.not_eq_false', beq_iff_eq] at h
    exact absurd h hx
  · rw [Bool.not_eq_false'] at h
    exact List.mem_of_mem_filter (contains_iff_mem.mp h)

theorem mem_finalStore_elim {s : Store} {e p : Option String} {ms : List Contact}
    {P : Contact} {T : List Contact} {c : Contact}
    (hc : c ∈ (finalStore s e p ms P T).contacts) :
    c ∈ (mergedStore s P T).contacts ∨
      c = ⟨(mergedStore s P T).nextId, e, p, some P.id, .secondary,
        (mergedStore s P T).now, none⟩ := by
  unfold finalStore insertSecondary at hc
  split at hc
  · rcases List.mem_append.mp hc with hc | hc
    · exact Or.inl hc
    · exact Or.inr (List.mem_singleton.mp hc)
  · exact Or.inl hc

theorem single_group_no_op (s : Store) (e p : Option String) {P : Contact} (hWF : WF s)
    (hP : IsLivePrimary s P) (hne : matchesFor s e p ≠ [])
    (hgrp : ∀ m ∈ matchesFor s e p, m = P ∨ m.linkedId = some P.id)
    (hcovE : ∀ x, e = some x → truthyStr e = true →
      ∃ m ∈ matchesFor s e p, m.email = some x)
    (hcovP : ∀ x, p = some x → truthyStr p = true →
      ∃ m ∈ matchesFor s e p, m.phoneNumber = some x) :
    identifyContact s e p = .ok ⟨s, buildResponse s P, 0⟩ := by
  have hroots : resolveRoots s (matchesFor s e p) =
      .ok ((matchesFor s e p).map (fun _ => P)) :=
    resolveRoots_const (fun m hm =>
      root_of_group_member hWF hP (matchesFor_live m hm).1 (hgrp m hm))
  have hdedupe : dedupeBy (fun c => c.id) ((matchesFor s e p).map (fun _ => P)) = [P] := by
    apply dedupeBy_all_eq
    · intro hnil
      exact hne (List.map_eq_nil.mp hnil)
    · intro a ha
      obtain ⟨m, _, he⟩ := List.mem_map.mp ha
      exact he.symm
  have hsort : sortByCreated
      (dedupeBy (fun c => c.id) ((matchesFor s e p).map (fun _ => P))) = P :: [] := by
    rw [hdedupe]
    rfl
  have hdriver := identifyContact_matched_eq hroots hsort hne
  have hniE : hasNewField e
      (((matchesFor s e p).filterMap (fun c => c.email)).filter (fun x => !(x == ""))) =
        false := by
    cases e with
    | none => rfl
    | some x =>
      by_cases hx : x = ""
      · subst hx
        simp [hasNewField]
      · have htr : truthyStr (some x) = true := by simp [truthyStr, hx]
        obtain ⟨m, hm, hme⟩ := hcovE x rfl htr
        simp only [hasNewField]
        have hmem : x ∈ ((matchesFor s (some x) p).filterMap (fun c => c.email)).filter
            (fun y => !(y == "")) :=
          List.mem_filter.mpr ⟨List.mem_filterMap.mpr ⟨m, hm, hme⟩, by simp [hx]⟩
        rw [contains_iff_mem.mpr hmem]
        simp
  have hniP : hasNewField p
      (((matchesFor s e p).filterMap (fun c => c.phoneNumber)).filter (fun x => !(x == ""))) =
        false := by
    cases p with
    | none => rfl
    | some x =>
      by_cases hx : x = ""
      · subst hx
        simp [hasNewField]
      · have htr : truthyStr (some x) = true := by simp [truthyStr, hx]
        obtain ⟨m, hm, hme⟩ := hcovP x rfl htr
        simp only [hasNewField]
        have hmem : x ∈ ((matchesFor s e (some x)).filterMap (fun c => c.phoneNumber)).filter
            (fun y => !(y == "")) :=
          List.mem_filter.mpr ⟨List.mem_filterMap.mpr ⟨m, hm, hme⟩, by simp [hx]⟩
        rw [contains_iff_mem.mpr hmem]
        simp
  have hni : newInfo (matchesFor s e p) e p = false := by
    unfold newInfo
    rw [hniE, hniP]
    rfl
  rw [hdriver]
  have hfs : finalStore s e p (matchesFor s e p) P [] = s := by
    unfold finalStore
    rw [if_neg (by rw [hni]; exact fun h => Bool.false_ne_true h)]
    rfl
  rw [hfs]
  simp [hni]

theorem truthy_some {o : Option String} (h : truthyStr o = true) :
    ∃ x, o = some x ∧ x ≠ "" := by
  cases o with
  | none => exact absurd h (by simp [truthyStr])
  | some s => exact ⟨s, rfl, by simpa [truthyStr] using h⟩

theorem two_call_no_op (s : Store) (e p : Option String) (hWF : WF s)
    (hne : NormIn e) (hnp : NormIn p) (htr : truthyStr e = true ∨ truthyStr p = true) :
    ∃ res, identifyContact s e p = .ok res ∧
      identifyContact res.store e p = .ok ⟨res.store, res.response, 0⟩ := by
  by_cases hm : matchesFor s e p = []
  case pos =>
    refine ⟨⟨primaryInserted s e p, buildResponse (primaryInserted s e p) (newPrimary s e p), 1⟩,
      identifyContact_nomatch_eq hm, ?_⟩
    have hWF₁ : WF (primaryInserted s e p) := WF_primaryInserted hWF e p
    have hnew_mem : newPrimary s e p ∈ (primaryInserted s e p).contacts :=
      List.mem_append.mpr (Or.inr (List.mem_singleton.mpr rfl))
    have hnewP : IsLivePrimary (primaryInserted s e p) (newPrimary s e p) :=
      ⟨hnew_mem, rfl, rfl⟩
    have hmatch_new : newPrimary s e p ∈ matchesFor (primaryInserted s e p) e p := by
      rcases htr with htre | htrp
      · exact mem_matchesFor_email hWF₁.pairwise_ids hnew_mem rfl htre rfl
      · exact mem_matchesFor_phone hWF₁.pairwise_ids hnew_mem rfl htrp rfl
    have hgrp : ∀ m ∈ matchesFor (primaryInserted s e p) e p,
        m = newPrimary s e p ∨ m.linkedId = some (newPrimary s e p).id := by
      intro m hmm
      obtain ⟨hmS, hmlive, hfield⟩ := mem_matchesFor hmm
      rcases List.mem_append.mp hmS with hold | hnewm
      · exfalso
        rcases hfield with ⟨ht, hfe⟩ | ⟨ht, hfp⟩
        · have hmem : m ∈ matchesFor s e p :=
            mem_matchesFor_email hWF.pairwise_ids hold hmlive ht hfe
          rw [hm] at hmem
          cases hmem
        · have hmem : m ∈ matchesFor s e p :=
            mem_matchesFor_phone hWF.pairwise_ids hold hmlive ht hfp
          rw [hm] at hmem
          cases hmem
      · exact Or.inl (List.mem_singleton.mp hnewm)
    exact single_group_no_op (primaryInserted s e p) e p hWF₁ hnewP
      (fun hnil => by rw [hnil] at hmatch_new; cases hmatch_new) hgrp
      (fun x hex _ => ⟨newPrimary s e p, hmatch_new, hex⟩)
      (fun x hpx _ => ⟨newPrimary s e p, hmatch_new, hpx⟩)
  case neg =>
    obtain ⟨roots, P, T, hroots, hrel, hsort, hP, hTlp, hPid, hTnodup, hprim, hsorted⟩ :=
      sorted_roots_facts hWF hm
    refine ⟨⟨finalStore s e p (matchesFor s e p) P T,
      buildResponse (finalStore s e p (matchesFor s e p) P T) P,
      2 * T.length + (if newInfo (matchesFor s e p) e p then 1 else 0)⟩,
      identifyContact_matched_eq hroots hsort hm, ?_⟩
    have hms := mergedStore_eq hPid hTnodup hprim
    have hWF₂ : WF (finalStore s e p (matchesFor s e p) P T) :=
      WF_finalStore e p (matchesFor s e p) hWF hP hPid hTnodup hprim
    have hPmem₂ : P ∈ (finalStore s e p (matchesFor s e p) P T).contacts := by
      refine mem_finalStore_of_merged ?_
      rw [hms]
      exact P_mem_merged hWF hP hPid
    have hP₂ : IsLivePrimary (finalStore s e p (matchesFor s e p) P T) P :=
      ⟨hPmem₂, hP.2.1, hP.2.2⟩
    have himg₂ : ∀ c ∈ s.contacts,
        mergeTransform P.id (T.map (fun t => t.id)) c ∈
          (finalStore s e p (matchesFor s e p) P T).contacts := by
      intro c hc
      refine mem_finalStore_of_merged ?_
      rw [hms]
      exact List.mem_map_of_mem _ hc
    have himg_match_email : ∀ {x : String}, x ≠ "" → e = some x →
        (∃ m ∈ matchesFor s e p, m.email = some x) →
        ∃ m₂ ∈ matchesFor (finalStore s e p (matchesFor s e p) P T) e p,
          m₂.email = some x := by
      rintro x hx hex ⟨m, hmm, hme⟩
      obtain ⟨hmS, hmlive, _⟩ := mem_matchesFor hmm
      refine ⟨mergeTransform P.id (T.map (fun t => t.id)) m,
        mem_matchesFor_email hWF₂.pairwise_ids (himg₂ m hmS)
          (by rw [mergeTransform_deletedAt]; exact hmlive)
          (by rw [hex]; simp [truthyStr, hx])
          (by rw [mergeTransform_email, hme, hex]), ?_⟩
      rw [mergeTransform_email]
      exact hme
    have himg_match_phone : ∀ {x : String}, x ≠ "" → p = some x →
        (∃ m ∈ matchesFor s e p, m.phoneNumber = some x) →
        ∃ m₂ ∈ matchesFor (finalStore s e p (matchesFor s e p) P T) e p,
          m₂.phoneNumber = some x := by
      rintro x hx hpx ⟨m, hmm, hme⟩
      obtain ⟨hmS, hmlive, _⟩ := mem_matchesFor hmm
      refine ⟨mergeTransform P.id (T.map (fun t => t.id)) m,
        mem_matchesFor_phone hWF₂.pairwise_ids (himg₂ m hmS)
          (by rw [mergeTransform_deletedAt]; exact hmlive)
          (by rw [hpx]; simp [truthyStr, hx])
          (by rw [mergeTransform_phone, hme, hpx]), ?_⟩
      rw [mergeTransform_phone]
      exact hme
    have hnewrow : newInfo (matchesFor s e p) e p = true →
        (⟨(mergedStore s P T).nextId, e, p, some P.id, .secondary,
          (mergedStore s P T).now, none⟩ : Contact) ∈
          (finalStore s e p (matchesFor s e p) P T).contacts := by
      intro hni
      unfold finalStore insertSecondary
      rw [if_pos hni]
      exact List.mem_append.mpr (Or.inr (List.mem_singleton.mpr rfl))
    have hcovE₂ : ∀ x, e = some x → truthyStr e = true →
        ∃ m₂ ∈ matchesFor (finalStore s e p (matchesFor s e p) P T) e p,
          m₂.email = some x := by
      intro x hex htre
      have hx : x ≠ "" := hne x hex
      by_cases hni : newInfo (matchesFor s e p) e p = true
      · exact ⟨_, mem_matchesFor_email hWF₂.pairwise_ids (hnewrow hni) rfl htre rfl, hex⟩
      · have hniE : hasNewField e
            (((matchesFor s e p).filterMap (fun c => c.email)).filter (fun y => !(y == ""))) =
              false := by
          unfold newInfo at hni
          simp only [Bool.or_eq_true, not_or, Bool.not_eq_true] at hni
          exact hni.1
        have hniE2 : hasNewField (some x)
            (((matchesFor s e p).filterMap (fun c => c.email)).filter (fun y => !(y == ""))) =
              false := by
          rw [← hex]
          exact hniE
        have hxp := hasNewField_false_mem hx hniE2
        obtain ⟨m, hmm, hme⟩ := List.mem_filterMap.mp hxp
        exact himg_match_email hx hex ⟨m, hmm, hme⟩
    have hcovP₂ : ∀ x, p = some x → truthyStr p = true →
        ∃ m₂ ∈ matchesFor (finalStore s e p (matchesFor s e p) P T) e p,
          m₂.phoneNumber = some x := by
      intro x hpx htrp
      have hx : x ≠ "" := hnp x hpx
      by_cases hni : newInfo (matchesFor s e p) e p = true
      · exact ⟨_, mem_matchesFor_phone hWF₂.pairwise_ids (hnewrow hni) rfl htrp rfl, hpx⟩
      · have hniP : hasNewField p
            (((matchesFor s e p).filterMap (fun c => c.phoneNumber)).filter
              (fun y => !(y == ""))) = false := by
          unfold newInfo at hni
          simp only [Bool.or_eq_true, not_or, Bool.not_eq_true] at hni
          exact hni.2
        have hniP2 : hasNewField (some x)
            (((matchesFor s e p).filterMap (fun c => c.phoneNumber)).filter
              (fun y => !(y == ""))) = false := by
          rw [← hpx]
          exact hniP
        have hxp := hasNewField_false_mem hx hniP2
        obtain ⟨m, hmm, hme⟩ := List.mem_filterMap.mp hxp
        exact himg_match_phone hx hpx ⟨m, hmm, hme⟩
    have hne₂ : matchesFor (finalStore s e p (matchesFor s e p) P T) e p ≠ [] := by
      rcases htr with htre | htrp
      · obtain ⟨x, hex, _⟩ := truthy_some htre
        obtain ⟨m₂, hm₂, _⟩ := hcovE₂ x hex htre
        intro hnil
        rw [hnil] at hm₂
        cases hm₂
      · obtain ⟨x, hpx, _⟩ := truthy_some htrp
        obtain ⟨m₂, hm₂, _⟩ := hcovP₂ x hpx htrp
        intro hnil
        rw [hnil] at hm₂
        cases hm₂
    have hgrp₂ : ∀ m₂ ∈ matchesFor (finalStore s e p (matchesFor s e p) P T) e p,
        m₂ = P ∨ m₂.linkedId = some P.id := by
      intro m₂ hmm₂
      obtain ⟨hm₂S, hm₂live, hfield₂⟩ := mem_matchesFor hmm₂
      rcases mem_finalStore_elim hm₂S with hmg | hnewr
      · rw [hms] at hmg
        obtain ⟨c, hc, hce⟩ := List.mem_map.mp hmg
        have hclive : c.deletedAt = none := by
          rw [← mergeTransform_deletedAt P.id (T.map (fun t => t.id)) c, hce]
          exact hm₂live
        have hcmatch : c ∈ matchesFor s e p := by
          rcases hfield₂ with ⟨ht, hfe⟩ | ⟨ht, hfp⟩
          · refine mem_matchesFor_email hWF.pairwise_ids hc hclive ht ?_
            rw [← mergeTransform_email P.id (T.map (fun t => t.id)) c, hce]
            exact hfe
          · refine mem_matchesFor_phone hWF.pairwise_ids hc hclive ht ?_
            rw [← mergeTransform_phone P.id (T.map (fun t => t.id)) c, hce]
            exact hfp
        have hgr := matched_in_group hWF hrel hsort hPid hprim hcmatch
        rw [hce] at hgr
        rcases hgr with hid | hlid
        · exact Or.inl (eq_of_mem_of_same_id hWF₂.pairwise_ids hm₂S hPmem₂ hid)
        · exact Or.inr hlid
      · right
        rw [hnewr]
    exact single_group_no_op _ e p hWF₂ hP₂ hne₂ hgrp₂ hcovE₂ hcovP₂

/-- C5: Idempotent duplicate. (1) For every well-formed store and normalized input
pair with at least one truthy field, a first reconcile call succeeds, and a second
call with byte-identical inputs on the resulting store succeeds, leaves the store
unchanged, returns the same view as the first call, and performs zero writes.
(2) More generally, any request whose matches all belong to the single consolidated
identity of one live primary P, and whose truthy input fields are already carried by
matched rows, performs zero writes and returns the view of P over the unchanged
store. -/
theorem c5_idempotent_duplicate :
    (∀ (s : Store) (e p : Option String), WF s → NormIn e → NormIn p →
      (truthyStr e = true ∨ truthyStr p = true) →
      ∃ res, identifyContact s e p = .ok res ∧
        identifyContact res.store e p = .ok ⟨res.store, res.response, 0⟩) ∧
    (∀ (s : Store) (e p : Option String) (P : Contact), WF s → IsLivePrimary s P →
      matchesFor s e p ≠ [] →
      (∀ m ∈ matchesFor s e p, m = P ∨ m.linkedId = some P.id) →
      (∀ x, e = some x → truthyStr e = true →
        ∃ m ∈ matchesFor s e p, m.email = some x) →
      (∀ x, p = some x → truthyStr p = true →
        ∃ m ∈ matchesFor s e p, m.phoneNumber = some x) →
      identifyContact s e p = .ok ⟨s, buildResponse s P, 0⟩) :=
  ⟨fun s e p hWF hne hnp htr => two_call_no_op s e p hWF hne hnp htr,
   fun s e p P hWF hP hne hgrp hcovE hcovP =>
     single_group_no_op s e p hWF hP hne hgrp hcovE hcovP⟩

theorem c5_witness :
    ∃ res, identifyContact ⟨[], 1, 0⟩ (some "a@b.c") none = .ok res ∧
      identifyContact res.store (some "a@b.c") none = .ok ⟨res.store, res.response, 0⟩ :=
  c5_idempotent_duplicate.1 ⟨[], 1, 0⟩ (some "a@b.c") none WF_nil
    (fun x hx => by injection hx with h; subst h; decide)
    (fun x hx => by cases hx)
    (Or.inl (by decide))

end BitMerge
